import Mathlib

/-!
Verification of the columnar-transposition cryptanalysis engine of the
`criptoclasica` repository (files `transposition/transposition_word.py` and
`transposition/auto_transpo.py`), as a shallow embedding in Lean 4.

Texts are modelled as `List Char`.  The source normalizes input to the
A-Z alphabet (`normalizar_AZ`); on inputs made of A-Z letters (the domain of
every property below) that function reduces to the final A-Z filter, which is
what `normalizar` embeds.  Python floating-point scores are modelled as exact
rationals; the fallback trigram table only holds halves, on which Python float
arithmetic is itself exact.  Python runtime errors (IndexError from indexing an
empty column) are modelled by `Option`: `none` is a raised exception.
-/

/-- A character in the normalized A-Z alphabet. -/
def isAZ (c : Char) : Bool := 'A' ≤ c && c ≤ 'Z'

/-- Embeds `normalizar_AZ` / `normalizar`: the final filter keeping only A-Z
characters (the NFD/uppercase pre-steps are the identity on A-Z input). -/
def normalizar (s : List Char) : List Char := s.filter isAZ

/-- The `long_rule` structural variant: which columns receive the remainder. -/
inductive LongRule
  | natural
  | read
  deriving DecidableEq, Repr

/-- The `col_direction` structural variant: reading columns down or up. -/
inductive ColDir
  | down
  | up
  deriving DecidableEq, Repr

/-- A solution tuple `(order1, long_rule, col_dir, plain)` as appended by
`probar_perm` in `transposition_word.py`. -/
abbrev Sol := List Nat × LongRule × ColDir × List Char

/-- One `longs[i] += 1` step of `longitudes_columnas` (Python list mutation). -/
def incAt (l : List Nat) (i : Nat) : List Nat := l.set i (l.getD i 0 + 1)

/-- Embeds `longitudes_columnas(N, ncols, order_read0, long_rule)` from
`transposition_word.py` (lines 106-116): base length `N div ncols` everywhere,
then the first `N mod ncols` columns — in natural index order or in read order
— get one extra symbol. -/
def longitudes_columnas (N ncols : Nat) (order0 : List Nat) (rule : LongRule) :
    List Nat :=
  let q := N / ncols
  let r := N % ncols
  let base := List.replicate ncols q
  match rule with
  | LongRule.read => (List.range r).foldl (fun acc j => incAt acc (order0.getD j 0)) base
  | LongRule.natural => (List.range r).foldl (fun acc j => incAt acc j) base

/-- Embeds `longitudes_columnas(N, n)` from `auto_transpo.py` (lines 120-122):
`[q + (1 if i < r else 0) for i in range(n)]`. -/
def longitudes_columnasA (N n : Nat) : List Nat :=
  (List.range n).map (fun i => N / n + if i < N % n then 1 else 0)

/-- Reference form of the column built by the cyclic-distribution loop of
`cifrar_por_orden_var`: scanning the text with a cycling column index `idx`,
collect the characters that land in column `i`. -/
def fcol (n : Nat) : List Char → Nat → Nat → List Char
  | [], _, _ => []
  | ch :: rest, idx, i => (if idx = i then [ch] else []) ++ fcol n rest ((idx + 1) % n) i

/-- Embeds the inscription loop of `cifrar_por_orden_var`: `cols[idx].append(ch);
idx = (idx + 1) % n` over an initial list of `n` empty columns. -/
def distribuir (P : List Char) (n : Nat) : List (List Char) :=
  (P.foldl
    (fun st ch => (st.1.set st.2 (st.1.getD st.2 [] ++ [ch]), (st.2 + 1) % n))
    (List.replicate n ([] : List Char), 0)).1

/-- Embeds `cifrar_por_orden_var(plaintext, read_order_1based, col_direction)`
from `transposition_word.py` (lines 149-168): normalize, distribute the text
cyclically over `n` columns, optionally reverse each column, and concatenate
the columns in read order.  (Valid read orders are 1-based permutations; the
embedding uses truncated subtraction and list defaults where Python would
raise or index from the end, so theorems carry validity hypotheses.) -/
def cifrar_por_orden_var (plaintext : List Char) (order1 : List Nat)
    (dir : ColDir) : List Char :=
  let P := normalizar plaintext
  let n := order1.length
  let order0 := order1.map (fun i => i - 1)
  let cols := distribuir P n
  let cols2 := match dir with
    | ColDir.up => cols.map List.reverse
    | ColDir.down => cols
  (order0.map (fun j => cols2.getD j [])).flatten

/-- Embeds the segment-assignment loop of `descifrar_por_orden` (and
`asignar_columnas` in `auto_transpo.py`): walk the read order, cutting
`C[cursor:cursor+L]` for each column in turn. -/
def asignar (C : List Char) (longs : List Nat) (order0 : List Nat) (n : Nat) :
    List (List Char) :=
  (order0.foldl
    (fun st idx =>
      (st.1.set idx ((C.drop st.2).take (longs.getD idx 0)),
       st.2 + longs.getD idx 0))
    (List.replicate n ([] : List Char), 0)).1

/-- Python `max(...)` over a list of naturals (the sources call it only on
nonempty lists; the embedding returns 0 on `[]` where Python raises). -/
def listMax (l : List Nat) : Nat := l.foldl Nat.max 0

/-- Python `min(...)` over a nonempty list of naturals (0 on `[]`). -/
def listMin (l : List Nat) : Nat :=
  match l with
  | [] => 0
  | x :: xs => xs.foldl Nat.min x

/-- Embeds the row-major read-out of `descifrar_por_orden` (and
`leer_por_filas` in `auto_transpo.py`): for each row below the tallest column,
emit the entry of every column that is long enough. -/
def leer_por_filas (cols : List (List Char)) : List Char :=
  ((List.range (listMax (cols.map List.length))).map
    (fun r => cols.filterMap (fun col => col[r]?))).flatten

/-- Embeds `descifrar_por_orden(ciphertext, read_order_1based, long_rule,
col_direction)` from `transposition_word.py` (lines 121-147). -/
def descifrar_por_orden (ciphertext : List Char) (order1 : List Nat)
    (rule : LongRule) (dir : ColDir) : List Char :=
  let C := normalizar ciphertext
  let n := order1.length
  let order0 := order1.map (fun i => i - 1)
  let longs := longitudes_columnas C.length n order0 rule
  let cols := asignar C longs order0 n
  let cols2 := match dir with
    | ColDir.up => cols.map List.reverse
    | ColDir.down => cols
  leer_por_filas cols2

/-- Embeds the variant loop of `probar_perm` (lines 173-190): for each
`(long_rule, col_dir)` pair in turn, decode, test crib containment, re-encrypt
and compare; matching candidates are appended, and with `stopfirst` the first
verified solution ends the search. -/
def probar_pares (cipher : List Char) (order1 : List Nat) (crib : List Char)
    (stopfirst : Bool) : List (LongRule × ColDir) → List Sol
  | [] => []
  | (lr, cd) :: rest =>
    let plain := descifrar_por_orden cipher order1 lr cd
    if crib <:+: plain ∧ cifrar_por_orden_var plain order1 cd = normalizar cipher then
      (order1, lr, cd, plain) ::
        (if stopfirst then [] else probar_pares cipher order1 crib stopfirst rest)
    else probar_pares cipher order1 crib stopfirst rest

/-- Embeds `probar_perm(cipher, order1, crib, long_rule_opts, col_dir_opts,
stopfirst)`: the nested variant loops, long rules outermost. -/
def probar_perm (cipher : List Char) (order1 : List Nat) (crib : List Char)
    (ruleOpts : List LongRule) (dirOpts : List ColDir) (stopfirst : Bool) :
    List Sol :=
  probar_pares cipher order1 crib stopfirst
    (ruleOpts.flatMap (fun lr => dirOpts.map (fun cd => (lr, cd))))

/-- A linear congruential step, standing in for Python's Mersenne Twister. -/
def lcg (s : Nat) : Nat := (1103515245 * s + 12345) % 2147483648

/-- Modelled from the spec: `random.sample(elems, k)` with `k = len(elems)`
draws a permutation of `elems` from the seeded generator.  The Mersenne
Twister itself is not in the repository; it is modelled by a deterministic
Fisher-Yates draw driven by `lcg`, which keeps the properties the spec states:
the draw is a permutation and is a pure function of the seed. -/
def drawPermAux : Nat → List Nat → Nat → List Nat × Nat
  | 0, _, s => ([], s)
  | _ + 1, [], s => ([], s)
  | fuel + 1, e :: t, s =>
    let elems := e :: t
    let i := s % elems.length
    let x := elems.getD i 0
    let rest := elems.eraseIdx i
    let pr := drawPermAux fuel rest (lcg s)
    (x :: pr.1, pr.2)

/-- One full sample: remove a pseudo-randomly chosen element until the pool is
exhausted (the fuel equals the pool size, so the pool always empties). -/
def drawPerm (elems : List Nat) (s : Nat) : List Nat × Nat :=
  drawPermAux elems.length elems s

/-- Modelled from the spec: the sampling branch `random.seed(42);
(random.sample(elems, k) for _ in range(maxperms))` — `maxperms` permutation
draws from the fixed-seed deterministic generator. -/
def muestrear (elems : List Nat) : Nat → Nat → List (List Nat)
  | 0, _ => []
  | m + 1, s =>
    let pr := drawPerm elems (lcg s)
    pr.1 :: muestrear elems m pr.2

/-- The `total` loop of `explorar_permutaciones`: `total = 1; for i in
range(2, k+1): total *= i`. -/
def totalPerms (k : Nat) : Nat := (List.range' 2 (k - 1)).foldl (· * ·) 1

/-- The candidate-order source of `explorar_permutaciones` (lines 200-211):
all `k!` permutations of `[1..k]` when `k!` fits the `maxperms` ceiling,
otherwise `maxperms` seeded random draws.  (`itertools.permutations`
enumerates lexicographically; `List.permutations` uses a different order,
which no claim depends on.) -/
def generar_perms (k maxperms : Nat) : List (List Nat) :=
  let elems := (List.range k).map (· + 1)
  if totalPerms k ≤ maxperms then elems.permutations
  else muestrear elems maxperms 42

/-- The candidate loop of `explorar_permutaciones`: try each order, collect
solutions, and with `stopfirst` stop after the first order that produced one. -/
def explorar_go (cipher : List Char) (crib : List Char) (rules : List LongRule)
    (dirs : List ColDir) (stopfirst : Bool) : List (List Nat) → List Sol
  | [] => []
  | o :: rest =>
    let sols := probar_perm cipher o crib rules dirs stopfirst
    if sols.isEmpty then explorar_go cipher crib rules dirs stopfirst rest
    else sols ++ (if stopfirst then []
                  else explorar_go cipher crib rules dirs stopfirst rest)

/-- Embeds `explorar_permutaciones(cipher, k, crib, long_rules, col_dirs,
stopfirst, maxperms)` from `transposition_word.py` (lines 192-219). -/
def explorar_permutaciones (cipher : List Char) (k : Nat) (crib : List Char)
    (rules : List LongRule) (dirs : List ColDir) (stopfirst : Bool)
    (maxperms : Nat) : List Sol :=
  explorar_go cipher crib rules dirs stopfirst (generar_perms k maxperms)

/-- The `kmin..kmax` sweep of `main` (case 3): run
`explorar_permutaciones` for each `k`, extending the solution list, stopping
at the first productive `k` when `stopfirst` is set. -/
def buscar_go (cipher : List Char) (crib : List Char) (rules : List LongRule)
    (dirs : List ColDir) (stopfirst : Bool) (maxperms : Nat) :
    List Nat → List Sol
  | [] => []
  | k :: ks =>
    let sols := explorar_permutaciones cipher k crib rules dirs stopfirst maxperms
    if sols.isEmpty then buscar_go cipher crib rules dirs stopfirst maxperms ks
    else sols ++ (if stopfirst then []
                  else buscar_go cipher crib rules dirs stopfirst maxperms ks)

/-- The whole crib search over a column range, as driven by `main`. -/
def buscar_en_rango (cipher : List Char) (kmin kmax : Nat) (crib : List Char)
    (rules : List LongRule) (dirs : List ColDir) (stopfirst : Bool)
    (maxperms : Nat) : List Sol :=
  buscar_go cipher crib rules dirs stopfirst maxperms
    (List.range' kmin (kmax + 1 - kmin))

/-- The hard-coded common Spanish trigrams of the fallback table in
`cargar_trigramas` (`auto_transpo.py`). -/
def comunes : List (List Char) :=
  ["QUE", "ENT", "LOS", "LAS", "EST", "NTE", "CON", "PAR", "ARA", "ION",
   "ADO"].map String.toList

/-- Embeds the fallback trigram table built by `cargar_trigramas(None)`: every
A-Z trigram scores `-9.0`, overwritten to `-2.5` on the common list; keys are
exactly the length-3 A-Z strings. -/
def TRI (t : List Char) : Option ℚ :=
  if t.length = 3 ∧ t.all isAZ then some (if t ∈ comunes then -5/2 else -9)
  else none

/-- The default log-probability returned with the fallback table. -/
def TRI_DEF : ℚ := -21/2

/-- Embeds `score_text(s)` (`auto_transpo.py` lines 107-114) over an arbitrary
table: the `-1e9` sentinel below 3 symbols, otherwise the accumulation loop
`total += TRI.get(s[i:i+3], TRI_DEF)` over `i in range(len(s)-2)`. -/
def score_text_tab (tbl : List Char → Option ℚ) (dflt : ℚ) (s : List Char) : ℚ :=
  if s.length < 3 then -1000000000
  else (List.range (s.length - 2)).foldl
    (fun total i => total + (tbl ((s.drop i).take 3)).getD dflt) 0

/-- `score_text` with the module-level fallback table `TRI, TRI_DEF`. -/
def score_text (s : List Char) : ℚ := score_text_tab TRI TRI_DEF s

/-- A beam-search hypothesis `(orden, cols, cursor, punt)` as in `beam_search`. -/
abbrev Estado := List Nat × List (List Char) × Nat × ℚ

/-- Option-valued collection of results along a list: the first `none`
(a raised IndexError in the source) aborts the whole computation. -/
def colectar (f : α → Option (List β)) : List α → Option (List β)
  | [] => some []
  | a :: rest =>
    match f a with
    | none => none
    | some bs =>
      match colectar f rest with
      | none => none
      | some more => some (bs ++ more)

/-- Embeds the partial-reconstruction generator of `beam_search`:
`''.join(cols2[c][r] for r in range(min_rows) for c in range(n))`.  The
source indexes every column `c in range(n)`, including columns not yet
assigned; indexing an empty column raises IndexError, modelled as `none`. -/
def parcialOf (cols2 : List (List Char)) (n minRows : Nat) : Option (List Char) :=
  colectar
    (fun r => ((List.range n).mapM (fun c => (cols2.getD c [])[r]?)))
    (List.range minRows)

/-- One candidate extension of one hypothesis by column `idx` (the body of the
`for idx in restantes` loop of `beam_search`). -/
def extUno (cipher : List Char) (n : Nat) (longs : List Nat) (st : Estado)
    (idx : Nat) : Option (List Estado) :=
  let L := longs.getD idx 0
  let seg := (cipher.drop st.2.2.1).take L
  let cols2 := st.2.1.set idx seg
  let orden2 := st.1 ++ [idx]
  let minRows := listMin (orden2.map (fun i => (cols2.getD i []).length))
  match parcialOf cols2 n minRows with
  | none => none
  | some parcial =>
    let pscore := score_text parcial / (max 1 parcial.length : Nat)
    some [(orden2, cols2, st.2.2.1 + L, st.2.2.2 + pscore)]

/-- All extensions of one hypothesis: loop over the unassigned columns. -/
def extender (cipher : List Char) (n : Nat) (longs : List Nat) (st : Estado) :
    Option (List Estado) :=
  colectar (extUno cipher n longs st)
    ((List.range n).filter (fun i => !(st.1.contains i)))

/-- Stable insertion into a descending-sorted list: existing elements with
strictly greater key stay in front, ties keep the earlier element first —
the tie behaviour of Python's stable `list.sort(reverse=True)`. -/
def insertarDesc (key : α → ℚ) (x : α) : List α → List α
  | [] => [x]
  | y :: ys => if key x < key y then y :: insertarDesc key x ys else x :: y :: ys

/-- Stable descending sort by a rational key (Python `list.sort` with
`reverse=True`). -/
def ordenarDesc (key : α → ℚ) (l : List α) : List α :=
  l.foldr (insertarDesc key) []

/-- One step (`paso`) of `beam_search`: generate every extension of every
surviving hypothesis, sort by accumulated score descending (Python's stable
`list.sort`), keep the top `beam`. -/
def pasoBeam (cipher : List Char) (n : Nat) (longs : List Nat) (beam : Nat)
    (estados : List Estado) : Option (List Estado) :=
  match colectar (extender cipher n longs) estados with
  | none => none
  | some nuevos =>
    some ((ordenarDesc (fun st => st.2.2.2) nuevos).take beam)

/-- The `for paso in range(n)` loop of `beam_search`. -/
def pasosLoop (cipher : List Char) (n : Nat) (longs : List Nat) (beam : Nat) :
    Nat → List Estado → Option (List Estado)
  | 0, estados => some estados
  | k + 1, estados =>
    match pasoBeam cipher n longs beam estados with
    | none => none
    | some est2 => pasosLoop cipher n longs beam k est2

/-- Embeds `beam_search(cipher, n, beam, topk)` from `auto_transpo.py`
(lines 147-185).  `none` models the IndexError raised while building a
partial reconstruction.  (On an empty ciphertext Python would instead raise
ZeroDivisionError in the final scoring; rational division by zero is total
here, but every theorem below assumes a nonempty ciphertext or never reaches
that division.) -/
def beam_search (cipher : List Char) (n beam topk : Nat) :
    Option (List (ℚ × List Nat × List Char)) :=
  let longs := longitudes_columnasA cipher.length n
  match pasosLoop cipher n longs beam n [([], List.replicate n ([] : List Char), 0, (0 : ℚ))] with
  | none => none
  | some estados =>
    let finales := estados.map (fun st =>
      let plain := leer_por_filas st.2.1
      (score_text plain / (plain.length : Nat), st.1, plain))
    some ((ordenarDesc (fun t => t.1) finales).take topk)

/-- The `for n in range(nmin, nmax+1)` sweep body of `search_n`. -/
def searchGo (cipher : List Char) (beam kbest : Nat) :
    List Nat → List (ℚ × Nat × List Nat × List Char) →
    Option (List (ℚ × Nat × List Nat × List Char))
  | [], acc => some ((ordenarDesc (fun t => t.1) acc).take kbest)
  | n :: rest, acc =>
    if n < 2 then searchGo cipher beam kbest rest acc
    else if listMin (longitudes_columnasA cipher.length n) < 3 then
      searchGo cipher beam kbest rest acc
    else
      match beam_search cipher n beam kbest with
      | none => none
      | some rs =>
        searchGo cipher beam kbest rest
          (acc ++ rs.map (fun t => (t.1, n, t.2.1, t.2.2)))

/-- Embeds `search_n(cipher, nmin, nmax, beam, kbest)` from `auto_transpo.py`
(lines 187-198): sweep the column counts, skipping degenerate geometries, and
return the global top `kbest`. -/
def search_n (cipher : List Char) (nmin nmax beam kbest : Nat) :
    Option (List (ℚ × Nat × List Nat × List Char)) :=
  searchGo cipher beam kbest (List.range' nmin (nmax + 1 - nmin)) []

/-! ## Geometry lemmas -/

theorem length_incAt (l : List Nat) (i : Nat) : (incAt l i).length = l.length :=
  List.length_set l i _

theorem getD_incAt (l : List Nat) (i j : Nat) (hj : j < l.length) :
    (incAt l i).getD j 0 = l.getD j 0 + if i = j then 1 else 0 := by
  unfold incAt
  by_cases h : i = j
  · subst h
    rw [List.getD_eq_getElem?_getD, List.getElem?_set]
    simp [hj, List.getD_eq_getElem?_getD]
  · rw [List.getD_eq_getElem?_getD, List.getElem?_set, if_neg h,
      ← List.getD_eq_getElem?_getD]
    simp [h]

theorem foldl_incAt_length (f : Nat → Nat) (js : List Nat) (base : List Nat) :
    (js.foldl (fun acc j => incAt acc (f j)) base).length = base.length := by
  induction js generalizing base with
  | nil => rfl
  | cons j js ih => rw [List.foldl_cons, ih, length_incAt]

theorem foldl_incAt_getD (f : Nat → Nat) (js : List Nat) (base : List Nat)
    (i : Nat) (hi : i < base.length) :
    (js.foldl (fun acc j => incAt acc (f j)) base).getD i 0
      = base.getD i 0 + js.countP (fun j => f j == i) := by
  induction js generalizing base with
  | nil => simp
  | cons j js ih =>
    rw [List.foldl_cons, ih _ (by rw [length_incAt]; exact hi),
      getD_incAt _ _ _ hi, List.countP_cons]
    by_cases h : f j = i <;> simp [h] <;> omega

theorem sum_incAt (l : List Nat) (i : Nat) :
    (incAt l i).sum = l.sum + if i < l.length then 1 else 0 := by
  induction l generalizing i with
  | nil => simp [incAt]
  | cons x xs ih =>
    cases i with
    | zero => simp [incAt]; omega
    | succ i =>
      have hstep : incAt (x :: xs) (i + 1) = x :: incAt xs i := by
        simp [incAt, List.set_cons_succ, List.getD_cons_succ]
      rw [hstep, List.sum_cons, List.sum_cons, ih]
      simp only [List.length_cons]
      split_ifs <;> omega

theorem foldl_incAt_sum (f : Nat → Nat) (js : List Nat) (base : List Nat) :
    (js.foldl (fun acc j => incAt acc (f j)) base).sum
      = base.sum + js.countP (fun j => f j < base.length) := by
  induction js generalizing base with
  | nil => simp
  | cons j js ih =>
    rw [List.foldl_cons, ih, sum_incAt, List.countP_cons, length_incAt]
    by_cases h : f j < base.length <;> simp [h] <;> omega

theorem countP_range_eqb (r i : Nat) :
    (List.range r).countP (fun j => j == i) = if i < r then 1 else 0 := by
  induction r with
  | zero => simp
  | succ r ih =>
    rw [List.range_succ, List.countP_append, ih]
    simp only [List.countP_cons, List.countP_nil, beq_iff_eq]
    split_ifs <;> omega

theorem countP_range_lt (r k : Nat) :
    (List.range k).countP (fun i => decide (i < r)) = min r k := by
  induction k with
  | zero => simp
  | succ k ih =>
    rw [List.range_succ, List.countP_append, ih]
    simp only [List.countP_cons, List.countP_nil, decide_eq_true_eq]
    split_ifs <;> omega

theorem countP_mem_of_nodup (S : List Nat) (k : Nat) (hS : S.Nodup)
    (hsub : ∀ x ∈ S, x < k) :
    (List.range k).countP (fun i => decide (i ∈ S)) = S.length := by
  rw [List.countP_eq_length_filter]
  have hperm : ((List.range k).filter (fun i => decide (i ∈ S))).Perm S := by
    rw [List.perm_ext_iff_of_nodup (List.Nodup.filter _ (List.nodup_range k)) hS]
    intro a
    simp only [List.mem_filter, List.mem_range, decide_eq_true_eq]
    exact ⟨fun h => h.2, fun h => ⟨hsub a h, h⟩⟩
  exact hperm.length_eq

theorem longitudes_natural_def (N k : Nat) (o : List Nat) :
    longitudes_columnas N k o LongRule.natural
      = (List.range (N % k)).foldl (fun acc j => incAt acc (id j))
          (List.replicate k (N / k)) := rfl

theorem longitudes_read_def (N k : Nat) (o : List Nat) :
    longitudes_columnas N k o LongRule.read
      = (List.range (N % k)).foldl (fun acc j => incAt acc (o.getD j 0))
          (List.replicate k (N / k)) := rfl

theorem longitudes_natural_eq (N k : Nat) (o : List Nat) :
    longitudes_columnas N k o LongRule.natural
      = (List.range k).map (fun i => N / k + if i < N % k then 1 else 0) := by
  rw [longitudes_natural_def]
  apply List.ext_getElem
  · rw [foldl_incAt_length]; simp
  · intro i h1 h2
    have hlen : i < (List.replicate k (N / k)).length := by
      rw [foldl_incAt_length] at h1; exact h1
    rw [← List.getD_eq_getElem _ 0 h1, foldl_incAt_getD id _ _ _ hlen]
    have hbase : (List.replicate k (N / k)).getD i 0 = N / k := by
      rw [List.getD_eq_getElem _ 0 hlen]; simp
    simp only [id_eq]
    rw [hbase, countP_range_eqb, List.getElem_map, List.getElem_range]

theorem range_map_getD_take (o : List Nat) (r : Nat) (hr : r ≤ o.length) :
    (List.range r).map (fun j => o.getD j 0) = o.take r := by
  induction r with
  | zero => simp
  | succ r ih =>
    have hrl : r < o.length := hr
    rw [List.range_succ, List.map_append, ih (Nat.le_of_lt hrl), List.take_succ]
    simp [List.getElem?_eq_getElem hrl, List.getD_eq_getElem _ 0 hrl]

theorem longitudes_read_eq (N k : Nat) (o : List Nat) (hk : 1 ≤ k)
    (ho : o.Perm (List.range k)) :
    longitudes_columnas N k o LongRule.read
      = (List.range k).map (fun i => N / k + if i ∈ o.take (N % k) then 1 else 0) := by
  have holen : o.length = k := by rw [ho.length_eq, List.length_range]
  have hrlen : N % k ≤ o.length := by
    rw [holen]; exact Nat.le_of_lt (Nat.mod_lt _ hk)
  have hnodup : o.Nodup := (ho.nodup_iff).mpr (List.nodup_range k)
  rw [longitudes_read_def]
  apply List.ext_getElem
  · rw [foldl_incAt_length]; simp
  · intro i h1 h2
    have hlen : i < (List.replicate k (N / k)).length := by
      rw [foldl_incAt_length] at h1; exact h1
    rw [← List.getD_eq_getElem _ 0 h1,
      foldl_incAt_getD (fun j => o.getD j 0) _ _ _ hlen]
    have hbase : (List.replicate k (N / k)).getD i 0 = N / k := by
      rw [List.getD_eq_getElem _ 0 hlen]; simp
    have hcnt : (List.range (N % k)).countP (fun j => o.getD j 0 == i)
        = if i ∈ o.take (N % k) then 1 else 0 := by
      have hmapped : (List.range (N % k)).countP (fun j => o.getD j 0 == i)
          = ((List.range (N % k)).map (fun j => o.getD j 0)).countP (fun x => x == i) := by
        rw [List.countP_map]; rfl
      rw [hmapped, range_map_getD_take o _ hrlen, ← List.count_eq_countP]
      have htnd : (o.take (N % k)).Nodup :=
        List.Sublist.nodup (List.take_sublist _ _) hnodup
      by_cases hm : i ∈ o.take (N % k)
      · rw [if_pos hm]; exact List.count_eq_one_of_mem htnd hm
      · rw [if_neg hm]; exact List.count_eq_zero_of_not_mem hm
    rw [hbase, hcnt, List.getElem_map, List.getElem_range]

theorem longitudes_length (N k : Nat) (o : List Nat) (rule : LongRule) :
    (longitudes_columnas N k o rule).length = k := by
  cases rule
  · rw [longitudes_natural_def, foldl_incAt_length]; simp
  · rw [longitudes_read_def, foldl_incAt_length]; simp

theorem longitudes_sum (N k : Nat) (o : List Nat) (rule : LongRule)
    (hk : 1 ≤ k) (ho : o.Perm (List.range k)) :
    (longitudes_columnas N k o rule).sum = N := by
  have hbase : (List.replicate k (N / k)).sum = k * (N / k) := by
    rw [List.sum_replicate, smul_eq_mul]
  have hblen : (List.replicate k (N / k)).length = k := List.length_replicate _ _
  have holen : o.length = k := by rw [ho.length_eq, List.length_range]
  have hmod : N % k < k := Nat.mod_lt _ hk
  cases rule
  · rw [longitudes_natural_def, foldl_incAt_sum, hbase, hblen]
    have hcnt : (List.range (N % k)).countP (fun j => id j < k) = N % k := by
      rw [List.countP_eq_length.mpr, List.length_range]
      intro a ha
      simp only [List.mem_range] at ha
      simp only [id_eq, decide_eq_true_eq]
      omega
    rw [hcnt]
    have := Nat.div_add_mod N k
    omega
  · rw [longitudes_read_def, foldl_incAt_sum, hbase, hblen]
    have hcnt : (List.range (N % k)).countP (fun j => o.getD j 0 < k) = N % k := by
      rw [List.countP_eq_length.mpr, List.length_range]
      intro a ha
      simp only [List.mem_range] at ha
      have haen : a < o.length := by omega
      have hmem : o.getD a 0 ∈ o := by
        rw [List.getD_eq_getElem _ 0 haen]
        exact List.getElem_mem haen
      have : o.getD a 0 ∈ List.range k := ho.mem_iff.mp hmem
      simp only [List.mem_range] at this
      rw [List.getD_eq_getElem?_getD] at this
      simp [this]
    rw [hcnt]
    have := Nat.div_add_mod N k
    omega

theorem countP_not_eq (l : List Nat) (p : Nat → Bool) :
    l.countP (fun a => !(p a)) = l.length - l.countP p := by
  induction l with
  | nil => simp
  | cons a l ih =>
    have hle : l.countP p ≤ l.length := List.countP_le_length _
    rw [List.countP_cons, List.countP_cons, ih]
    cases hpa : p a <;> simp [hpa] <;> omega

theorem longitudes_count_long (N k : Nat) (o : List Nat) (rule : LongRule)
    (hk : 1 ≤ k) (ho : o.Perm (List.range k)) :
    (longitudes_columnas N k o rule).countP (fun L => L == N / k + 1) = N % k := by
  have hmod : N % k < k := Nat.mod_lt _ hk
  have holen : o.length = k := by rw [ho.length_eq, List.length_range]
  have hnodup : o.Nodup := (ho.nodup_iff).mpr (List.nodup_range k)
  cases rule
  · rw [longitudes_natural_eq, List.countP_map]
    have hcond : (List.range k).countP
        ((fun L => L == N / k + 1) ∘ (fun i => N / k + if i < N % k then 1 else 0))
        = (List.range k).countP (fun i => decide (i < N % k)) := by
      apply List.countP_congr
      intro x _
      simp only [Function.comp_apply, beq_iff_eq, decide_eq_true_eq]
      split_ifs <;> omega
    rw [hcond, countP_range_lt]
    omega
  · rw [longitudes_read_eq N k o hk ho, List.countP_map]
    have hcond : (List.range k).countP
        ((fun L => L == N / k + 1) ∘ (fun i => N / k + if i ∈ o.take (N % k) then 1 else 0))
        = (List.range k).countP (fun i => decide (i ∈ o.take (N % k))) := by
      apply List.countP_congr
      intro x _
      simp only [Function.comp_apply, beq_iff_eq, decide_eq_true_eq]
      split_ifs with h <;> simp [h]
    rw [hcond, countP_mem_of_nodup _ k
      (List.Sublist.nodup (List.take_sublist _ _) hnodup)
      (fun x hx => by
        have hmem : x ∈ o := List.mem_of_mem_take hx
        have : x ∈ List.range k := ho.mem_iff.mp hmem
        simpa using this)]
    rw [List.length_take, holen]
    omega

theorem longitudes_count_base (N k : Nat) (o : List Nat) (rule : LongRule)
    (hk : 1 ≤ k) (ho : o.Perm (List.range k)) :
    (longitudes_columnas N k o rule).countP (fun L => L == N / k) = k - N % k := by
  have hlong := longitudes_count_long N k o rule hk ho
  have hlen := longitudes_length N k o rule
  have hcompl : (longitudes_columnas N k o rule).countP (fun L => L == N / k)
      = (longitudes_columnas N k o rule).countP
          (fun L => !(L == N / k + 1)) := by
    apply List.countP_congr
    intro x hx
    have hx2 : x = N / k ∨ x = N / k + 1 := by
      cases rule
      · rw [longitudes_natural_eq] at hx
        simp only [List.mem_map, List.mem_range] at hx
        obtain ⟨i, _, hi⟩ := hx
        split_ifs at hi <;> omega
      · rw [longitudes_read_eq N k o hk ho] at hx
        simp only [List.mem_map, List.mem_range] at hx
        obtain ⟨i, _, hi⟩ := hx
        split_ifs at hi <;> omega
    simp only [beq_iff_eq, Bool.not_eq_true', beq_eq_false_iff_ne, ne_eq]
    omega
  rw [hcompl, countP_not_eq, hlong, hlen]

/-- C3: for every `N ≥ 0`, `k ≥ 1`, remainder rule and valid read order, the
geometry has `k` lengths summing exactly to `N`; exactly `N mod k` columns
have length `(N div k) + 1` and the remaining `k - N mod k` have length
`N div k`; under the natural rule the longer columns are the first `N mod k`
column indices, and under the read rule they are the first `N mod k` columns
of the read order. -/
theorem geometria_columnas_correcta (N k : Nat) (o : List Nat) (rule : LongRule)
    (hk : 1 ≤ k) (ho : o.Perm (List.range k)) :
    (longitudes_columnas N k o rule).length = k ∧
    (longitudes_columnas N k o rule).sum = N ∧
    (longitudes_columnas N k o rule).countP (fun L => L == N / k + 1) = N % k ∧
    (longitudes_columnas N k o rule).countP (fun L => L == N / k) = k - N % k ∧
    longitudes_columnas N k o LongRule.natural
      = (List.range k).map (fun i => N / k + if i < N % k then 1 else 0) ∧
    longitudes_columnas N k o LongRule.read
      = (List.range k).map (fun i => N / k + if i ∈ o.take (N % k) then 1 else 0) :=
  ⟨longitudes_length N k o rule, longitudes_sum N k o rule hk ho,
   longitudes_count_long N k o rule hk ho, longitudes_count_base N k o rule hk ho,
   longitudes_natural_eq N k o, longitudes_read_eq N k o hk ho⟩

/-- Witness for C3 at `N = 32`, `k = 5`, read order `[2,0,4,1,3]`, plus the
spec's two scenario geometries (`N = 30` and `N = 32`, natural rule). -/
theorem geometria_columnas_correcta_witness :
    (1 ≤ 5 ∧ ([2, 0, 4, 1, 3] : List Nat).Perm (List.range 5)) ∧
    ((longitudes_columnas 32 5 [2, 0, 4, 1, 3] LongRule.read).length = 5 ∧
     (longitudes_columnas 32 5 [2, 0, 4, 1, 3] LongRule.read).sum = 32 ∧
     (longitudes_columnas 32 5 [2, 0, 4, 1, 3] LongRule.read).countP
       (fun L => L == 32 / 5 + 1) = 32 % 5 ∧
     (longitudes_columnas 32 5 [2, 0, 4, 1, 3] LongRule.read).countP
       (fun L => L == 32 / 5) = 5 - 32 % 5 ∧
     longitudes_columnas 32 5 [2, 0, 4, 1, 3] LongRule.natural
       = (List.range 5).map (fun i => 32 / 5 + if i < 32 % 5 then 1 else 0) ∧
     longitudes_columnas 32 5 [2, 0, 4, 1, 3] LongRule.read
       = (List.range 5).map
           (fun i => 32 / 5 + if i ∈ ([2, 0, 4, 1, 3] : List Nat).take (32 % 5) then 1 else 0)) ∧
    longitudes_columnas 30 5 [0, 1, 2, 3, 4] LongRule.natural = [6, 6, 6, 6, 6] ∧
    longitudes_columnas 32 5 [0, 1, 2, 3, 4] LongRule.natural = [7, 7, 6, 6, 6] :=
  ⟨⟨by decide, by decide⟩,
   geometria_columnas_correcta 32 5 [2, 0, 4, 1, 3] LongRule.read (by decide) (by decide),
   by decide, by decide⟩

/-! ## Column-distribution lemmas (encryption side) -/

theorem fcol_nil (n idx i : Nat) : fcol n [] idx i = [] := rfl

theorem fcol_short (n : Nat) (A : List Char) : ∀ (idx i : Nat),
    idx + A.length ≤ n → i < n →
    fcol n A idx i
      = if idx ≤ i ∧ i < idx + A.length then (A[i - idx]?).toList else [] := by
  induction A with
  | nil =>
    intro idx i hn hi
    rw [fcol_nil, if_neg]
    simp only [List.length_nil, Nat.add_zero]
    omega
  | cons a A2 ih =>
    intro idx i hn hi
    simp only [List.length_cons] at hn
    simp only [fcol, List.length_cons]
    rcases Nat.lt_or_ge (idx + 1) n with hlt | hge
    · rw [Nat.mod_eq_of_lt hlt, ih (idx + 1) i (by omega) hi]
      by_cases h : idx = i
      · subst h
        rw [if_pos rfl, if_neg (by omega), if_pos (by omega)]
        simp
      · rw [if_neg h]
        by_cases h2 : idx ≤ i ∧ i < idx + (A2.length + 1)
        · rw [if_pos (by omega), if_pos h2, List.nil_append,
            show i - idx = (i - (idx + 1)) + 1 by omega, List.getElem?_cons_succ]
        · rw [if_neg (by omega), if_neg h2, List.nil_append]
    · have hA2 : A2 = [] := List.eq_nil_of_length_eq_zero (by omega)
      subst hA2
      simp only [List.length_nil, fcol_nil, List.append_nil, List.length_cons]
      by_cases h : idx = i
      · rw [if_pos h, if_pos (by omega), show i - idx = 0 by omega,
          List.getElem?_cons_zero]
        simp
      · rw [if_neg h, if_neg (by omega)]

theorem fcol_append (n : Nat) (hn : 1 ≤ n) (A B : List Char) : ∀ (idx i : Nat),
    idx < n →
    fcol n (A ++ B) idx i = fcol n A idx i ++ fcol n B ((idx + A.length) % n) i := by
  induction A with
  | nil =>
    intro idx i hidx
    simp [fcol_nil, Nat.mod_eq_of_lt hidx]
  | cons a A2 ih =>
    intro idx i hidx
    simp only [List.cons_append, fcol, List.length_cons, List.append_assoc]
    rw [show A2.append B = A2 ++ B from rfl,
      ih ((idx + 1) % n) i (Nat.mod_lt _ (by omega)), Nat.mod_add_mod]
    have harg : idx + 1 + A2.length = idx + (A2.length + 1) := by omega
    rw [harg]

theorem fcol_chunk (n : Nat) (hn : 1 ≤ n) (P : List Char) (i : Nat) (hi : i < n) :
    fcol n P 0 i = (P[i]?).toList ++ fcol n (P.drop n) 0 i := by
  rcases Nat.lt_or_ge P.length n with hP | hP
  · have hdrop : P.drop n = [] := List.drop_eq_nil_of_le (Nat.le_of_lt hP)
    rw [hdrop, fcol_nil, List.append_nil, fcol_short n P 0 i (by omega) hi]
    by_cases h : i < P.length
    · rw [if_pos (by omega), show i - 0 = i by omega]
    · rw [if_neg (by omega), List.getElem?_eq_none (by omega)]
      simp
  · conv_lhs => rw [← List.take_append_drop n P]
    have htl : (P.take n).length = n := by
      rw [List.length_take]
      omega
    rw [fcol_append n hn _ _ 0 i (by omega)]
    rw [show (0 + (List.take n P).length) % n = 0 by rw [htl]; simp]
    congr 1
    rw [fcol_short n _ 0 i (by rw [htl]; omega) hi,
      if_pos ⟨Nat.zero_le _, by rw [htl]; omega⟩,
      show i - 0 = i by omega, List.getElem?_take, if_pos hi]

theorem fcol_getElem? (n : Nat) (hn : 1 ≤ n) (i : Nat) (hi : i < n) :
    ∀ (r : Nat) (P : List Char), (fcol n P 0 i)[r]? = P[r * n + i]? := by
  intro r
  induction r with
  | zero =>
    intro P
    rw [fcol_chunk n hn P i hi, show 0 * n + i = i by omega]
    by_cases h : i < P.length
    · rw [List.getElem?_eq_getElem h]
      simp
    · have hnone : P[i]? = none := List.getElem?_eq_none (by omega)
      have hdrop : P.drop n = [] := List.drop_eq_nil_of_le (by omega)
      rw [hnone, hdrop, fcol_nil]
      simp
  | succ r ih =>
    intro P
    rw [fcol_chunk n hn P i hi]
    by_cases h : i < P.length
    · rw [List.getElem?_eq_getElem h, Option.toList_some, List.singleton_append,
        List.getElem?_cons_succ, ih (P.drop n), List.getElem?_drop,
        show n + (r * n + i) = (r + 1) * n + i by ring]
    · have hnone : P[i]? = none := List.getElem?_eq_none (by omega)
      have hdrop : P.drop n = [] := List.drop_eq_nil_of_le (by omega)
      have hbig : P.length ≤ (r + 1) * n + i :=
        Nat.le_trans (by omega) (Nat.le_add_left i _)
      rw [hnone, hdrop, fcol_nil, List.getElem?_eq_none hbig]
      simp

theorem fcol_length_aux (n : Nat) (hn : 1 ≤ n) (i : Nat) (hi : i < n) :
    ∀ (m : Nat) (P : List Char), P.length ≤ m →
      (fcol n P 0 i).length
        = P.length / n + if i < P.length % n then 1 else 0 := by
  intro m
  induction m with
  | zero =>
    intro P hP
    have hnil : P = [] := List.eq_nil_of_length_eq_zero (by omega)
    subst hnil
    simp [fcol_nil]
  | succ m ih =>
    intro P hP
    rcases Nat.lt_or_ge P.length n with hshort | hlong
    · rw [fcol_short n P 0 i (by omega) hi, Nat.div_eq_of_lt hshort,
        Nat.mod_eq_of_lt hshort]
      by_cases h : i < P.length
      · rw [if_pos (by omega), if_pos h,
          List.getElem?_eq_getElem (show i - 0 < P.length by omega)]
        simp
      · rw [if_neg (by omega), if_neg h]
        simp
    · rw [fcol_chunk n hn P i hi, List.getElem?_eq_getElem (show i < P.length by omega),
        Option.toList_some, List.singleton_append, List.length_cons]
      have hdlen : (P.drop n).length = P.length - n := List.length_drop _ _
      rw [ih (P.drop n) (by rw [hdlen]; omega), hdlen]
      obtain ⟨M, hM⟩ : ∃ M, P.length = M + n := ⟨P.length - n, by omega⟩
      rw [hM, Nat.add_div_right _ (by omega), Nat.add_mod_right,
        show M + n - n = M by omega]
      split_ifs <;> omega

theorem fcol_length (n : Nat) (hn : 1 ≤ n) (i : Nat) (hi : i < n) (P : List Char) :
    (fcol n P 0 i).length = P.length / n + if i < P.length % n then 1 else 0 :=
  fcol_length_aux n hn i hi P.length P (Nat.le_refl _)

theorem mem_fcol (n : Nat) (P : List Char) : ∀ (idx i : Nat) (c : Char),
    c ∈ fcol n P idx i → c ∈ P := by
  induction P with
  | nil =>
    intro idx i c h
    rw [fcol_nil] at h
    exact absurd h (List.not_mem_nil c)
  | cons a A2 ih =>
    intro idx i c h
    simp only [fcol, List.mem_append] at h
    rcases h with h | h
    · by_cases hcond : idx = i
      · rw [if_pos hcond] at h
        simp only [List.mem_singleton] at h
        rw [h]
        exact List.mem_cons_self _ _
      · rw [if_neg hcond] at h
        exact absurd h (List.not_mem_nil c)
    · exact List.mem_cons_of_mem a (ih _ i c h)

/-! ## Distribution and assignment invariants -/

theorem distribuir_invariant (n : Nat) :
    ∀ (P : List Char) (cols : List (List Char)) (idx : Nat),
      cols.length = n → idx < n →
      ((P.foldl
          (fun st ch => (st.1.set st.2 (st.1.getD st.2 [] ++ [ch]), (st.2 + 1) % n))
          (cols, idx)).1).length = n ∧
      ∀ i, i < n →
        ((P.foldl
            (fun st ch => (st.1.set st.2 (st.1.getD st.2 [] ++ [ch]), (st.2 + 1) % n))
            (cols, idx)).1).getD i []
          = cols.getD i [] ++ fcol n P idx i := by
  intro P
  induction P with
  | nil =>
    intro cols idx hcols hidx
    exact ⟨hcols, fun i hi => by simp [fcol_nil]⟩
  | cons ch rest ih =>
    intro cols idx hcols hidx
    rw [List.foldl_cons]
    have hlen2 : (cols.set idx (cols.getD idx [] ++ [ch])).length = n := by
      rw [List.length_set]; exact hcols
    have hidx2 : (idx + 1) % n < n := Nat.mod_lt _ (by omega)
    obtain ⟨hL, hg⟩ := ih (cols.set idx (cols.getD idx [] ++ [ch])) ((idx + 1) % n)
      hlen2 hidx2
    refine ⟨hL, fun i hi => ?_⟩
    rw [hg i hi]
    simp only [fcol]
    by_cases h : idx = i
    · subst h
      have hset : (cols.set idx (cols.getD idx [] ++ [ch])).getD idx []
          = cols.getD idx [] ++ [ch] := by
        rw [List.getD_eq_getElem?_getD, List.getElem?_set]
        simp [hcols ▸ hidx]
      rw [hset, if_pos rfl, List.append_assoc]
    · have hset : (cols.set idx (cols.getD idx [] ++ [ch])).getD i []
          = cols.getD i [] := by
        rw [List.getD_eq_getElem?_getD, List.getElem?_set, if_neg h,
          ← List.getD_eq_getElem?_getD]
      rw [hset, if_neg h, List.nil_append]

theorem distribuir_length (P : List Char) (n : Nat) (hn : 1 ≤ n) :
    (distribuir P n).length = n :=
  (distribuir_invariant n P (List.replicate n []) 0 (List.length_replicate _ _)
    (by omega)).1

theorem distribuir_getD (P : List Char) (n : Nat) (hn : 1 ≤ n) (i : Nat)
    (hi : i < n) :
    (distribuir P n).getD i [] = fcol n P 0 i := by
  have h := (distribuir_invariant n P (List.replicate n []) 0
    (List.length_replicate _ _) (by omega)).2 i hi
  rw [distribuir] at *
  rw [h]
  have hrep : (List.replicate n ([] : List Char)).getD i [] = [] := by
    rw [List.getD_eq_getElem?_getD, List.getElem?_eq_getElem (by simpa using hi)]
    simp
  rw [hrep, List.nil_append]

theorem asignar_invariant (C : List Char) (longs : List Nat) (E : Nat → List Char) :
    ∀ (os : List Nat) (cols : List (List Char)) (cursor : Nat) (tail : List Char),
      (∀ j ∈ os, j < cols.length) →
      C.drop cursor = (os.map E).flatten ++ tail →
      (∀ j ∈ os, (E j).length = longs.getD j 0) →
      ((os.foldl
          (fun st idx =>
            (st.1.set idx ((C.drop st.2).take (longs.getD idx 0)),
             st.2 + longs.getD idx 0))
          (cols, cursor)).1).length = cols.length ∧
      ∀ i, i < cols.length →
        ((os.foldl
            (fun st idx =>
              (st.1.set idx ((C.drop st.2).take (longs.getD idx 0)),
               st.2 + longs.getD idx 0))
            (cols, cursor)).1).getD i []
          = if i ∈ os then E i else cols.getD i [] := by
  intro os
  induction os with
  | nil =>
    intro cols cursor tail _ _ _
    exact ⟨rfl, fun i hi => by simp⟩
  | cons j os2 ih =>
    intro cols cursor tail hbound hC hlen
    rw [List.foldl_cons]
    have hseg : (C.drop cursor).take (longs.getD j 0) = E j := by
      rw [hC, ← hlen j (List.mem_cons_self _ _)]
      simp only [List.map_cons, List.flatten_cons, List.append_assoc]
      rw [List.take_left]
    have hdrop2 : C.drop (cursor + longs.getD j 0) = (os2.map E).flatten ++ tail := by
      rw [← List.drop_drop, hC, ← hlen j (List.mem_cons_self _ _)]
      simp only [List.map_cons, List.flatten_cons, List.append_assoc]
      rw [List.drop_left]
    rw [hseg]
    obtain ⟨hL, hg⟩ := ih (cols.set j (E j)) (cursor + longs.getD j 0) tail
      (fun x hx => by rw [List.length_set]; exact hbound x (List.mem_cons_of_mem _ hx))
      hdrop2
      (fun x hx => hlen x (List.mem_cons_of_mem _ hx))
    refine ⟨by rw [hL, List.length_set], fun i hi => ?_⟩
    rw [hg i (by rw [List.length_set]; exact hi)]
    by_cases hmem : i ∈ os2
    · rw [if_pos hmem, if_pos (List.mem_cons_of_mem _ hmem)]
    · rw [if_neg hmem]
      by_cases hji : j = i
      · subst hji
        rw [if_pos (List.mem_cons_self _ _)]
        rw [List.getD_eq_getElem?_getD, List.getElem?_set]
        simp [hbound j (List.mem_cons_self _ _)]
      · rw [if_neg (by simp [hmem]; omega),
          List.getD_eq_getElem?_getD, List.getElem?_set, if_neg hji,
          ← List.getD_eq_getElem?_getD]

/-! ## Row-major read lemmas -/

theorem foldl_max_init (l : List Nat) : ∀ b : Nat, b ≤ l.foldl Nat.max b := by
  induction l with
  | nil => intro b; exact Nat.le_refl _
  | cons x xs ih =>
    intro b
    exact Nat.le_trans (Nat.le_max_left b x) (ih (Nat.max b x))

theorem foldl_max_mem (l : List Nat) : ∀ (b a : Nat), a ∈ l → a ≤ l.foldl Nat.max b := by
  induction l with
  | nil => intro b a h; exact absurd h (List.not_mem_nil a)
  | cons x xs ih =>
    intro b a h
    rcases List.mem_cons.mp h with h | h
    · subst h
      exact Nat.le_trans (Nat.le_max_right b a) (foldl_max_init xs _)
    · exact ih _ a h

theorem le_listMax (l : List Nat) (a : Nat) (h : a ∈ l) : a ≤ listMax l :=
  foldl_max_mem l 0 a h

theorem filterMap_range_getElem (Q : List Char) : ∀ m : Nat,
    (List.range m).filterMap (fun i => Q[i]?) = Q.take m := by
  intro m
  induction m with
  | zero => simp
  | succ m ih =>
    rw [List.range_succ, List.filterMap_append, ih, List.take_succ]
    congr 1

theorem fila_de_columnas (n : Nat) (hn : 1 ≤ n) (P : List Char) (r : Nat) :
    ((List.range n).map (fun i => fcol n P 0 i)).filterMap (fun col => col[r]?)
      = (P.drop (r * n)).take n := by
  rw [List.filterMap_map]
  have hcong : ∀ i ∈ List.range n,
      ((fun col => col[r]?) ∘ (fun i => fcol n P 0 i)) i
        = (fun i => (P.drop (r * n))[i]?) i := by
    intro i hi
    simp only [Function.comp_apply]
    rw [fcol_getElem? n hn i (List.mem_range.mp hi) r P, List.getElem?_drop]
  rw [List.filterMap_congr hcong, filterMap_range_getElem]

theorem chunks_flatten (n : Nat) (hn : 1 ≤ n) : ∀ (m : Nat) (Q : List Char),
    Q.length ≤ m * n →
    ((List.range m).map (fun r => (Q.drop (r * n)).take n)).flatten = Q := by
  intro m
  induction m with
  | zero =>
    intro Q hQ
    have : Q = [] := List.eq_nil_of_length_eq_zero (by omega)
    subst this
    simp
  | succ m ih =>
    intro Q hQ
    rw [List.range_succ_eq_map, List.map_cons, List.flatten_cons, List.map_map]
    have hcomp : ((fun r => (Q.drop (r * n)).take n) ∘ Nat.succ)
        = (fun r => ((Q.drop n).drop (r * n)).take n) := by
      funext r
      simp only [Function.comp_apply]
      rw [List.drop_drop]
      congr 2
      have : Nat.succ r = r + 1 := rfl
      rw [this]
      ring
    have harith : (m + 1) * n = m * n + n := by ring
    rw [hcomp, ih (Q.drop n) (by rw [List.length_drop]; omega)]
    simp

theorem leer_transpone (n : Nat) (hn : 1 ≤ n) (P : List Char) :
    leer_por_filas ((List.range n).map (fun i => fcol n P 0 i)) = P := by
  unfold leer_por_filas
  have hM : P.length ≤ listMax (((List.range n).map (fun i => fcol n P 0 i)).map
      List.length) * n := by
    have h0 : fcol n P 0 0 ∈ (List.range n).map (fun i => fcol n P 0 i) := by
      refine List.mem_map.mpr ⟨0, ?_, rfl⟩
      simp
      omega
    have hmem : (fcol n P 0 0).length
        ∈ ((List.range n).map (fun i => fcol n P 0 i)).map List.length :=
      List.mem_map_of_mem List.length h0
    have hle := le_listMax _ _ hmem
    rw [fcol_length n hn 0 (by omega) P] at hle
    have hdm := Nat.div_add_mod P.length n
    have hmod : P.length % n < n := Nat.mod_lt _ (by omega)
    by_cases h : 0 < P.length % n
    · rw [if_pos h] at hle
      have : (P.length / n + 1) * n = n * (P.length / n) + n := by ring
      nlinarith [Nat.mul_le_mul_right n hle]
    · rw [if_neg h] at hle
      have : (P.length / n + 0) * n = n * (P.length / n) := by ring
      nlinarith [Nat.mul_le_mul_right n hle]
  have hrows : ∀ r ∈ List.range (listMax (((List.range n).map
      (fun i => fcol n P 0 i)).map List.length)),
      ((List.range n).map (fun i => fcol n P 0 i)).filterMap (fun col => col[r]?)
        = (P.drop (r * n)).take n := fun r _ => fila_de_columnas n hn P r
  rw [List.map_congr_left hrows,
    chunks_flatten n hn _ P hM]

/-! ## Round-trip machinery -/

/-- The effect of the `col_direction` variant on one column. -/
def dirApply : ColDir → List Char → List Char
  | ColDir.down, l => l
  | ColDir.up, l => l.reverse

theorem normalizar_eq_self (s : List Char) (h : ∀ c ∈ s, isAZ c = true) :
    normalizar s = s :=
  List.filter_eq_self.mpr h

theorem cifrar_def (plaintext : List Char) (order1 : List Nat) (dir : ColDir) :
    cifrar_por_orden_var plaintext order1 dir
      = ((order1.map (fun i => i - 1)).map
          (fun j => (match dir with
            | ColDir.up => (distribuir (normalizar plaintext) order1.length).map List.reverse
            | ColDir.down => distribuir (normalizar plaintext) order1.length).getD j [])).flatten := rfl

theorem descifrar_def (ciphertext : List Char) (order1 : List Nat)
    (rule : LongRule) (dir : ColDir) :
    descifrar_por_orden ciphertext order1 rule dir
      = leer_por_filas (match dir with
          | ColDir.up =>
            (asignar (normalizar ciphertext)
              (longitudes_columnas (normalizar ciphertext).length order1.length
                (order1.map (fun i => i - 1)) rule)
              (order1.map (fun i => i - 1)) order1.length).map List.reverse
          | ColDir.down =>
            asignar (normalizar ciphertext)
              (longitudes_columnas (normalizar ciphertext).length order1.length
                (order1.map (fun i => i - 1)) rule)
              (order1.map (fun i => i - 1)) order1.length) := rfl

theorem getD_map_range (f : Nat → Nat) (n j : Nat) (hj : j < n) (d : Nat) :
    ((List.range n).map f).getD j d = f j := by
  rw [List.getD_eq_getElem _ d (by simp [hj]), List.getElem_map, List.getElem_range]

theorem cifrar_eq (P : List Char) (order1 : List Nat) (dir : ColDir)
    (hn : 1 ≤ order1.length)
    (hbound : ∀ j ∈ order1.map (fun i => i - 1), j < order1.length) :
    cifrar_por_orden_var P order1 dir
      = ((order1.map (fun i => i - 1)).map
          (fun j => dirApply dir (fcol order1.length (normalizar P) 0 j))).flatten := by
  rw [cifrar_def]
  congr 1
  apply List.map_congr_left
  intro j hj
  have hjn : j < order1.length := hbound j hj
  cases dir with
  | down => exact distribuir_getD (normalizar P) order1.length hn j hjn
  | up =>
    have hidx : j < (distribuir (normalizar P) order1.length).length := by
      rw [distribuir_length _ _ hn]; exact hjn
    have hgd := distribuir_getD (normalizar P) order1.length hn j hjn
    rw [List.getD_eq_getElem _ [] hidx] at hgd
    simp only [dirApply]
    rw [List.getD_eq_getElem?_getD, List.getElem?_map,
      List.getElem?_eq_getElem hidx]
    simp [hgd]

theorem asignar_def (C : List Char) (longs : List Nat) (os : List Nat) (n : Nat) :
    asignar C longs os n
      = (os.foldl
          (fun st idx =>
            (st.1.set idx ((C.drop st.2).take (longs.getD idx 0)),
             st.2 + longs.getD idx 0))
          (List.replicate n ([] : List Char), 0)).1 := rfl

theorem roundtrip_aux (P : List Char) (order1 : List Nat) (dir : ColDir)
    (rule : LongRule) (hk : 1 ≤ order1.length)
    (horder : order1.Perm ((List.range order1.length).map (fun i => i + 1)))
    (hAZ : ∀ c ∈ P, isAZ c = true)
    (hrule : rule = LongRule.natural ∨ P.length % order1.length = 0) :
    descifrar_por_orden (cifrar_por_orden_var P order1 dir) order1 rule dir = P := by
  have horder0 : (order1.map (fun i => i - 1)).Perm (List.range order1.length) := by
    have h1 := horder.map (fun i => i - 1)
    rw [List.map_map] at h1
    have h2 : ((fun i => i - 1) ∘ (fun i => i + 1)) = id := by
      funext x; simp
    rw [h2, List.map_id] at h1
    exact h1
  have hbound : ∀ j ∈ order1.map (fun i => i - 1), j < order1.length := by
    intro j hj
    have := horder0.mem_iff.mp hj
    simpa using this
  have hPn : normalizar P = P := normalizar_eq_self P hAZ
  have hC := cifrar_eq P order1 dir hk hbound
  rw [hPn] at hC
  have hCAZ : ∀ c ∈ cifrar_por_orden_var P order1 dir, isAZ c = true := by
    intro c hc
    rw [hC] at hc
    obtain ⟨l, hl, hcl⟩ := List.mem_flatten.mp hc
    obtain ⟨j, hj, rfl⟩ := List.mem_map.mp hl
    apply hAZ
    cases dir with
    | down => exact mem_fcol order1.length P 0 j c hcl
    | up => exact mem_fcol order1.length P 0 j c (List.mem_reverse.mp hcl)
  have hNC : normalizar (cifrar_por_orden_var P order1 dir)
      = cifrar_por_orden_var P order1 dir := normalizar_eq_self _ hCAZ
  have hElen : ∀ j, j < order1.length →
      (dirApply dir (fcol order1.length P 0 j)).length
        = P.length / order1.length + if j < P.length % order1.length then 1 else 0 := by
    intro j hj
    cases dir with
    | down => simpa [dirApply] using fcol_length order1.length hk j hj P
    | up => simpa [dirApply] using fcol_length order1.length hk j hj P
  have hlenC : (cifrar_por_orden_var P order1 dir).length = P.length := by
    rw [hC, List.length_flatten, List.map_map]
    have hmapped : ((order1.map (fun i => i - 1)).map
        (List.length ∘ (fun j => dirApply dir (fcol order1.length P 0 j))))
        = ((order1.map (fun i => i - 1)).map
            (fun j => P.length / order1.length
              + if j < P.length % order1.length then 1 else 0)) := by
      apply List.map_congr_left
      intro j hj
      exact hElen j (hbound j hj)
    rw [hmapped,
      (horder0.map (fun j => P.length / order1.length
        + if j < P.length % order1.length then 1 else 0)).sum_eq,
      ← longitudes_natural_eq P.length order1.length (order1.map (fun i => i - 1))]
    exact longitudes_sum P.length order1.length _ LongRule.natural hk horder0
  rw [descifrar_def, hNC, hlenC]
  have hlongs : longitudes_columnas P.length order1.length
      (order1.map (fun i => i - 1)) rule
      = (List.range order1.length).map
          (fun i => P.length / order1.length
            + if i < P.length % order1.length then 1 else 0) := by
    cases rule with
    | natural => exact longitudes_natural_eq _ _ _
    | read =>
      rcases hrule with hr | hr
      · exact absurd hr (by simp)
      · rw [longitudes_read_def, hr]
        simp only [List.range_zero, List.foldl_nil]
        apply List.ext_getElem
        · simp
        · intro i h1 h2
          simp
  rw [hlongs]
  have hdrop0 : (cifrar_por_orden_var P order1 dir).drop 0
      = ((order1.map (fun i => i - 1)).map
          (fun j => dirApply dir (fcol order1.length P 0 j))).flatten ++ [] := by
    rw [List.drop_zero, List.append_nil]
    exact hC
  have hlens : ∀ j ∈ order1.map (fun i => i - 1),
      (dirApply dir (fcol order1.length P 0 j)).length
        = ((List.range order1.length).map
            (fun i => P.length / order1.length
              + if i < P.length % order1.length then 1 else 0)).getD j 0 := by
    intro j hj
    rw [getD_map_range _ order1.length j (hbound j hj)]
    exact hElen j (hbound j hj)
  obtain ⟨hALen, hAget⟩ := asignar_invariant (cifrar_por_orden_var P order1 dir)
    ((List.range order1.length).map
      (fun i => P.length / order1.length
        + if i < P.length % order1.length then 1 else 0))
    (fun j => dirApply dir (fcol order1.length P 0 j))
    (order1.map (fun i => i - 1)) (List.replicate order1.length []) 0 []
    (fun j hj => by rw [List.length_replicate]; exact hbound j hj)
    hdrop0 hlens
  rw [List.length_replicate] at hALen hAget
  have hmemall : ∀ i, i < order1.length → i ∈ order1.map (fun i => i - 1) := by
    intro i hi
    exact horder0.mem_iff.mpr (List.mem_range.mpr hi)
  have hgetA : ∀ i, i < order1.length →
      (asignar (cifrar_por_orden_var P order1 dir)
        ((List.range order1.length).map
          (fun i => P.length / order1.length
            + if i < P.length % order1.length then 1 else 0))
        (order1.map (fun i => i - 1)) order1.length).getD i []
        = dirApply dir (fcol order1.length P 0 i) := by
    intro i hi
    rw [asignar_def]
    rw [hAget i hi, if_pos (hmemall i hi)]
  have hlenA : (asignar (cifrar_por_orden_var P order1 dir)
      ((List.range order1.length).map
        (fun i => P.length / order1.length
          + if i < P.length % order1.length then 1 else 0))
      (order1.map (fun i => i - 1)) order1.length).length = order1.length := by
    rw [asignar_def]
    exact hALen
  cases dir with
  | down =>
    have hEq : asignar (cifrar_por_orden_var P order1 ColDir.down)
        ((List.range order1.length).map
          (fun i => P.length / order1.length
            + if i < P.length % order1.length then 1 else 0))
        (order1.map (fun i => i - 1)) order1.length
        = (List.range order1.length).map (fun i => fcol order1.length P 0 i) := by
      apply List.ext_getElem
      · rw [hlenA]; simp
      · intro i h1 h2
        rw [← List.getD_eq_getElem _ [] h1, hgetA i (by rw [hlenA] at h1; exact h1),
          List.getElem_map, List.getElem_range]
        rfl
    rw [hEq]
    exact leer_transpone order1.length hk P
  | up =>
    have hEq : (asignar (cifrar_por_orden_var P order1 ColDir.up)
        ((List.range order1.length).map
          (fun i => P.length / order1.length
            + if i < P.length % order1.length then 1 else 0))
        (order1.map (fun i => i - 1)) order1.length).map List.reverse
        = (List.range order1.length).map (fun i => fcol order1.length P 0 i) := by
      apply List.ext_getElem
      · rw [List.length_map, hlenA]; simp
      · intro i h1 h2
        have h1a : i < order1.length := by
          rw [List.length_map, hlenA] at h1; exact h1
        have hidx : i < (asignar (cifrar_por_orden_var P order1 ColDir.up)
            ((List.range order1.length).map
              (fun i => P.length / order1.length
                + if i < P.length % order1.length then 1 else 0))
            (order1.map (fun i => i - 1)) order1.length).length := by
          rw [hlenA]; exact h1a
        rw [List.getElem_map, List.getElem_map, List.getElem_range,
          ← List.getD_eq_getElem _ [] hidx, hgetA i h1a]
        simp [dirApply]
    rw [hEq]
    exact leer_transpone order1.length hk P

/-- C1 counterexample: for the 5-letter plaintext `ABCDE`, read order
`[3,1,2]` and the variant `(long_rule = read, col_direction = down)`, decoding
the encoding does not give the plaintext back (it yields `DECBA`): the claimed
round-trip fails for variants with the read remainder rule when the column
count does not divide the text length. -/
theorem roundtrip_read_counterexample :
    descifrar_por_orden
      (cifrar_por_orden_var "ABCDE".toList [3, 1, 2] ColDir.down)
      [3, 1, 2] LongRule.read ColDir.down ≠ "ABCDE".toList := by
  decide

/-- C1 (amended): for every A-Z plaintext `P`, valid 1-based read order and
column direction, decoding the encoding yields `P` again for every variant
whose long rule is `natural`; for the `read` long rule the round-trip holds
whenever the column count divides `len(P)`. -/
theorem roundtrip_por_variante (P : List Char) (order1 : List Nat) (dir : ColDir)
    (rule : LongRule) (hk : 1 ≤ order1.length)
    (horder : order1.Perm ((List.range order1.length).map (fun i => i + 1)))
    (hAZ : ∀ c ∈ P, isAZ c = true)
    (hrule : rule = LongRule.natural ∨ P.length % order1.length = 0) :
    descifrar_por_orden (cifrar_por_orden_var P order1 dir) order1 rule dir = P :=
  roundtrip_aux P order1 dir rule hk horder hAZ hrule

/-- Witness for C1 on the spec's 21-symbol scenario text with order `[3,1,2]`
and `col_direction = down`. -/
theorem roundtrip_por_variante_witness :
    (1 ≤ ([3, 1, 2] : List Nat).length ∧
     ([3, 1, 2] : List Nat).Perm
       ((List.range ([3, 1, 2] : List Nat).length).map (fun i => i + 1)) ∧
     (∀ c ∈ "THEQUICKBROWNFOXJUMPS".toList, isAZ c = true)) ∧
    descifrar_por_orden
      (cifrar_por_orden_var "THEQUICKBROWNFOXJUMPS".toList [3, 1, 2] ColDir.down)
      [3, 1, 2] LongRule.natural ColDir.down = "THEQUICKBROWNFOXJUMPS".toList :=
  ⟨⟨by decide, by decide, by decide⟩,
   roundtrip_por_variante "THEQUICKBROWNFOXJUMPS".toList [3, 1, 2] ColDir.down
     LongRule.natural (by decide) (by decide) (by decide) (Or.inl rfl)⟩

/-! ## Crib-search acceptance -/

theorem probar_pares_sound (cipher : List Char) (order1 : List Nat)
    (crib : List Char) (stopfirst : Bool) :
    ∀ (pairs : List (LongRule × ColDir)) (sol : Sol),
      sol ∈ probar_pares cipher order1 crib stopfirst pairs →
      ∃ lr cd, (lr, cd) ∈ pairs ∧
        sol = (order1, lr, cd, descifrar_por_orden cipher order1 lr cd) ∧
        crib <:+: descifrar_por_orden cipher order1 lr cd ∧
        cifrar_por_orden_var (descifrar_por_orden cipher order1 lr cd) order1 cd
          = normalizar cipher := by
  intro pairs
  induction pairs with
  | nil =>
    intro sol h
    simp [probar_pares] at h
  | cons p rest ih =>
    obtain ⟨lr, cd⟩ := p
    intro sol h
    simp only [probar_pares] at h
    by_cases hcond : crib <:+: descifrar_por_orden cipher order1 lr cd ∧
        cifrar_por_orden_var (descifrar_por_orden cipher order1 lr cd) order1 cd
          = normalizar cipher
    · rw [if_pos hcond] at h
      rcases List.mem_cons.mp h with h2 | h2
      · exact ⟨lr, cd, List.mem_cons_self _ _, h2, hcond.1, hcond.2⟩
      · cases stopfirst with
        | true => simp at h2
        | false =>
          simp only [Bool.false_eq_true, if_false] at h2
          obtain ⟨lr2, cd2, hmem, hrest⟩ := ih sol h2
          exact ⟨lr2, cd2, List.mem_cons_of_mem _ hmem, hrest⟩
    · rw [if_neg hcond] at h
      obtain ⟨lr2, cd2, hmem, hrest⟩ := ih sol h
      exact ⟨lr2, cd2, List.mem_cons_of_mem _ hmem, hrest⟩

theorem probar_pares_mem (cipher : List Char) (order1 : List Nat)
    (crib : List Char) :
    ∀ (pairs : List (LongRule × ColDir)) (sol : Sol),
      sol ∈ probar_pares cipher order1 crib false pairs ↔
      ∃ lr cd, (lr, cd) ∈ pairs ∧
        sol = (order1, lr, cd, descifrar_por_orden cipher order1 lr cd) ∧
        crib <:+: descifrar_por_orden cipher order1 lr cd ∧
        cifrar_por_orden_var (descifrar_por_orden cipher order1 lr cd) order1 cd
          = normalizar cipher := by
  intro pairs
  induction pairs with
  | nil =>
    intro sol
    simp [probar_pares]
  | cons p rest ih =>
    obtain ⟨lr, cd⟩ := p
    intro sol
    simp only [probar_pares]
    by_cases hcond : crib <:+: descifrar_por_orden cipher order1 lr cd ∧
        cifrar_por_orden_var (descifrar_por_orden cipher order1 lr cd) order1 cd
          = normalizar cipher
    · rw [if_pos hcond]
      simp only [Bool.false_eq_true, if_false]
      constructor
      · intro h
        rcases List.mem_cons.mp h with h2 | h2
        · exact ⟨lr, cd, List.mem_cons_self _ _, h2, hcond.1, hcond.2⟩
        · obtain ⟨lr2, cd2, hmem, hrest⟩ := (ih sol).mp h2
          exact ⟨lr2, cd2, List.mem_cons_of_mem _ hmem, hrest⟩
      · rintro ⟨lr2, cd2, hmem, hsol, hinf, hrec⟩
        rcases List.mem_cons.mp hmem with h2 | h2
        · rw [Prod.mk.injEq] at h2
          obtain ⟨rfl, rfl⟩ := h2
          rw [hsol]
          exact List.mem_cons_self _ _
        · exact List.mem_cons_of_mem _ ((ih sol).mpr ⟨lr2, cd2, h2, hsol, hinf, hrec⟩)
    · rw [if_neg hcond]
      rw [ih sol]
      constructor
      · rintro ⟨lr2, cd2, hmem, hrest⟩
        exact ⟨lr2, cd2, List.mem_cons_of_mem _ hmem, hrest⟩
      · rintro ⟨lr2, cd2, hmem, hsol, hinf, hrec⟩
        rcases List.mem_cons.mp hmem with h2 | h2
        · rw [Prod.mk.injEq] at h2
          obtain ⟨rfl, rfl⟩ := h2
          exact absurd ⟨hinf, hrec⟩ hcond
        · exact ⟨lr2, cd2, h2, hsol, hinf, hrec⟩

theorem mem_pares_product (rules : List LongRule) (dirs : List ColDir)
    (lr : LongRule) (cd : ColDir) :
    (lr, cd) ∈ rules.flatMap (fun lr2 => dirs.map (fun cd2 => (lr2, cd2)))
      ↔ lr ∈ rules ∧ cd ∈ dirs := by
  simp only [List.mem_flatMap, List.mem_map, Prod.mk.injEq]
  constructor
  · rintro ⟨a, ha, cd2, hcd2, rfl, rfl⟩
    exact ⟨ha, hcd2⟩
  · rintro ⟨ha, hcd⟩
    exact ⟨lr, ha, cd, hcd, rfl, rfl⟩

/-- C2: with the default (non stop-first) search, a candidate
`(order, long_rule, col_dir)` is emitted by `probar_perm` as a solution if
and only if the crib occurs as a contiguous substring of the decoded
plaintext and re-encrypting that plaintext under the same order and column
direction reproduces the normalized ciphertext exactly; moreover in every
mode each emitted solution passed both checks (a crib match whose
re-encryption differs is silently discarded and the loop continues). -/
theorem probar_perm_acepta_iff (cipher : List Char) (order1 : List Nat)
    (crib : List Char) (rules : List LongRule) (dirs : List ColDir)
    (stopfirst : Bool) (sol : Sol) :
    (sol ∈ probar_perm cipher order1 crib rules dirs false ↔
      ∃ lr cd, lr ∈ rules ∧ cd ∈ dirs ∧
        sol = (order1, lr, cd, descifrar_por_orden cipher order1 lr cd) ∧
        crib <:+: descifrar_por_orden cipher order1 lr cd ∧
        cifrar_por_orden_var (descifrar_por_orden cipher order1 lr cd) order1 cd
          = normalizar cipher) ∧
    (sol ∈ probar_perm cipher order1 crib rules dirs stopfirst →
      crib <:+: sol.2.2.2 ∧
      cifrar_por_orden_var sol.2.2.2 order1 sol.2.2.1
        = normalizar cipher) := by
  constructor
  · rw [probar_perm, probar_pares_mem]
    constructor
    · rintro ⟨lr, cd, hmem, hrest⟩
      obtain ⟨h1, h2⟩ := (mem_pares_product rules dirs lr cd).mp hmem
      exact ⟨lr, cd, h1, h2, hrest⟩
    · rintro ⟨lr, cd, h1, h2, hrest⟩
      exact ⟨lr, cd, (mem_pares_product rules dirs lr cd).mpr ⟨h1, h2⟩, hrest⟩
  · intro h
    obtain ⟨lr, cd, _, hsol, hinf, hrec⟩ :=
      probar_pares_sound cipher order1 crib stopfirst _ sol h
    subst hsol
    exact ⟨hinf, hrec⟩

/-! ## Permutation generation -/

theorem range'_two_foldl (m : Nat) :
    (List.range' 2 m).foldl (· * ·) 1 = Nat.factorial (m + 1) := by
  induction m with
  | zero => rfl
  | succ m ih =>
    rw [List.range'_concat, List.foldl_append, ih]
    simp only [List.foldl_cons, List.foldl_nil]
    rw [show 2 + 1 * m = m + 2 by omega, Nat.factorial_succ (m + 1)]
    ring

theorem totalPerms_eq_factorial (k : Nat) : totalPerms k = Nat.factorial k := by
  cases k with
  | zero => rfl
  | succ m =>
    unfold totalPerms
    rw [show m + 1 - 1 = m by omega, range'_two_foldl]

theorem generar_def (k maxperms : Nat) :
    generar_perms k maxperms
      = if totalPerms k ≤ maxperms
        then ((List.range k).map (fun i => i + 1)).permutations
        else muestrear ((List.range k).map (fun i => i + 1)) maxperms 42 := rfl

theorem getD_eraseIdx_perm : ∀ (l : List Nat) (i : Nat), i < l.length →
    (l.getD i 0 :: l.eraseIdx i).Perm l := by
  intro l
  induction l with
  | nil => intro i h; simp at h
  | cons e t ih =>
    intro i h
    cases i with
    | zero => simp
    | succ i =>
      simp only [List.getD_cons_succ, List.eraseIdx_cons_succ]
      have h2 : i < t.length := by
        simp only [List.length_cons] at h
        omega
      exact (List.Perm.swap e (t.getD i 0) (t.eraseIdx i)).trans
        (List.Perm.cons e (ih i h2))

theorem drawPermAux_perm : ∀ (fuel : Nat) (elems : List Nat) (s : Nat),
    elems.length ≤ fuel → (drawPermAux fuel elems s).1.Perm elems := by
  intro fuel
  induction fuel with
  | zero =>
    intro elems s h
    have : elems = [] := List.eq_nil_of_length_eq_zero (by omega)
    subst this
    simp [drawPermAux]
  | succ fuel ih =>
    intro elems s h
    cases elems with
    | nil => simp [drawPermAux]
    | cons e t =>
      simp only [drawPermAux]
      have hi : s % (e :: t).length < (e :: t).length := Nat.mod_lt _ (by simp)
      have hrest : ((e :: t).eraseIdx (s % (e :: t).length)).length ≤ fuel := by
        rw [List.length_eraseIdx, if_pos hi]
        simp only [List.length_cons] at h ⊢
        omega
      exact (List.Perm.cons _ (ih _ (lcg s) hrest)).trans
        (getD_eraseIdx_perm (e :: t) _ hi)

theorem drawPerm_perm (elems : List Nat) (s : Nat) :
    (drawPerm elems s).1.Perm elems :=
  drawPermAux_perm elems.length elems s (Nat.le_refl _)

theorem muestrear_length (elems : List Nat) : ∀ (m s : Nat),
    (muestrear elems m s).length = m := by
  intro m
  induction m with
  | zero => intro s; rfl
  | succ m ih => intro s; simp [muestrear, ih]

theorem muestrear_mem_perm (elems : List Nat) : ∀ (m s : Nat),
    ∀ p ∈ muestrear elems m s, p.Perm elems := by
  intro m
  induction m with
  | zero => intro s p h; simp [muestrear] at h
  | succ m ih =>
    intro s p h
    simp only [muestrear] at h
    rcases List.mem_cons.mp h with h2 | h2
    · subst h2
      exact drawPerm_perm elems (lcg s)
  
    · exact ih _ p h2

/-- C6: when `k!` does not exceed the `maxperms` ceiling, the candidate
generator enumerates exactly `k!` distinct permutations of `[1..k]` with no
duplicates; otherwise it draws exactly `maxperms` permutations of `[1..k]`
from the fixed-seed deterministic generator (so the sequence is a pure
function of `k` and `maxperms`). -/
theorem generacion_permutaciones (k maxperms : Nat) :
    (Nat.factorial k ≤ maxperms →
      (generar_perms k maxperms).length = Nat.factorial k ∧
      (generar_perms k maxperms).Nodup ∧
      ∀ p ∈ generar_perms k maxperms,
        p.Perm ((List.range k).map (fun i => i + 1))) ∧
    (maxperms < Nat.factorial k →
      (generar_perms k maxperms).length = maxperms ∧
      ∀ p ∈ generar_perms k maxperms,
        p.Perm ((List.range k).map (fun i => i + 1))) := by
  have helems : ((List.range k).map (fun i => i + 1)).Nodup :=
    List.Nodup.map (fun a b h => by omega) (List.nodup_range k)
  constructor
  · intro h
    rw [generar_def, if_pos (by rw [totalPerms_eq_factorial]; exact h)]
    refine ⟨?_, List.nodup_permutations _ helems, ?_⟩
    · rw [List.length_permutations, List.length_map, List.length_range]
    · intro p hp
      exact List.mem_permutations.mp hp
  · intro h
    rw [generar_def, if_neg (by rw [totalPerms_eq_factorial]; omega)]
    exact ⟨muestrear_length _ _ _, muestrear_mem_perm _ _ _⟩

/-- Witness for C6 at `k = 3` in both regimes (`maxperms = 10` exhaustive,
`maxperms = 2` sampled). -/
theorem generacion_permutaciones_witness :
    (Nat.factorial 3 ≤ 10 ∧
      ((generar_perms 3 10).length = Nat.factorial 3 ∧
       (generar_perms 3 10).Nodup ∧
       ∀ p ∈ generar_perms 3 10, p.Perm ((List.range 3).map (fun i => i + 1)))) ∧
    (2 < Nat.factorial 3 ∧
      ((generar_perms 3 2).length = 2 ∧
       ∀ p ∈ generar_perms 3 2, p.Perm ((List.range 3).map (fun i => i + 1)))) :=
  ⟨⟨by decide, (generacion_permutaciones 3 10).1 (by decide)⟩,
   ⟨by decide, (generacion_permutaciones 3 2).2 (by decide)⟩⟩

/-! ## The crib-search sweep -/

theorem explorar_go_false (cipher crib : List Char) (rules : List LongRule)
    (dirs : List ColDir) :
    ∀ perms : List (List Nat),
      explorar_go cipher crib rules dirs false perms
        = perms.flatMap (fun o => probar_perm cipher o crib rules dirs false) := by
  intro perms
  induction perms with
  | nil => rfl
  | cons o rest ih =>
    simp only [explorar_go, List.flatMap_cons]
    by_cases h : (probar_perm cipher o crib rules dirs false).isEmpty = true
    · rw [if_pos h, ih, List.isEmpty_iff.mp h, List.nil_append]
    · rw [if_neg h]
      simp only [Bool.false_eq_true, if_false, ih]

theorem buscar_go_false (cipher crib : List Char) (rules : List LongRule)
    (dirs : List ColDir) (maxperms : Nat) :
    ∀ ks : List Nat,
      buscar_go cipher crib rules dirs false maxperms ks
        = ks.flatMap (fun k =>
            explorar_permutaciones cipher k crib rules dirs false maxperms) := by
  intro ks
  induction ks with
  | nil => rfl
  | cons k rest ih =>
    simp only [buscar_go, List.flatMap_cons]
    by_cases h : (explorar_permutaciones cipher k crib rules dirs false
        maxperms).isEmpty = true
    · rw [if_pos h, ih, List.isEmpty_iff.mp h, List.nil_append]
    · rw [if_neg h]
      simp only [Bool.false_eq_true, if_false, ih]

theorem cifrar_normalizada (P : List Char) (order1 : List Nat) (dir : ColDir)
    (hk : 1 ≤ order1.length)
    (horder : order1.Perm ((List.range order1.length).map (fun i => i + 1)))
    (hAZ : ∀ c ∈ P, isAZ c = true) :
    normalizar (cifrar_por_orden_var P order1 dir)
      = cifrar_por_orden_var P order1 dir := by
  have horder0 : (order1.map (fun i => i - 1)).Perm (List.range order1.length) := by
    have h1 := horder.map (fun i => i - 1)
    rw [List.map_map] at h1
    have h2 : ((fun i => i - 1) ∘ (fun i => i + 1)) = id := by
      funext x; simp
    rw [h2, List.map_id] at h1
    exact h1
  have hbound : ∀ j ∈ order1.map (fun i => i - 1), j < order1.length := by
    intro j hj
    have := horder0.mem_iff.mp hj
    simpa using this
  have hC := cifrar_eq P order1 dir hk hbound
  rw [normalizar_eq_self P hAZ] at hC
  apply normalizar_eq_self
  intro c hc
  rw [hC] at hc
  obtain ⟨l, hl, hcl⟩ := List.mem_flatten.mp hc
  obtain ⟨j, hj, rfl⟩ := List.mem_map.mp hl
  apply hAZ
  cases dir with
  | down => exact mem_fcol order1.length P 0 j c hcl
  | up => exact mem_fcol order1.length P 0 j c (List.mem_reverse.mp hcl)

/-- C4 counterexample: plaintext `ABCDE` containing the crib `ABCDE`, encoded
under order `[3,1,2]` with `col_direction = down`; a crib search over exactly
`k = 3`, the variant set `{(read, down)}` containing the encoding variant's
rule pair, and budget `720 ≥ 3!` yields no solution whose decoded plaintext
equals the original, contradicting the claim as stated for
`long_rule = read`. -/
theorem busqueda_crib_read_counterexample :
    ¬ ∃ s ∈ buscar_en_rango
        (cifrar_por_orden_var "ABCDE".toList [3, 1, 2] ColDir.down)
        3 3 "ABCDE".toList [LongRule.read] [ColDir.down] false 720,
      s.2.2.2 = "ABCDE".toList := by
  rintro ⟨s, hmem, hplain⟩
  rw [buscar_en_rango, buscar_go_false] at hmem
  obtain ⟨k, hk, hmem2⟩ := List.mem_flatMap.mp hmem
  rw [List.mem_range'_1] at hk
  have hk3 : k = 3 := by omega
  subst hk3
  rw [explorar_permutaciones, explorar_go_false] at hmem2
  obtain ⟨o, ho, hsol⟩ := List.mem_flatMap.mp hmem2
  rw [generar_def, if_pos (by decide)] at ho
  have hperm : o.Perm ([1, 2, 3] : List Nat) := by
    have h1 := List.mem_permutations.mp ho
    have h2 : ((List.range 3).map (fun i => i + 1)) = [1, 2, 3] := by decide
    rw [h2] at h1
    exact h1
  obtain ⟨lr, cd, hpair, hs, hinf, hrec⟩ :=
    probar_pares_sound _ o _ false _ s hsol
  have hlr : lr = LongRule.read ∧ cd = ColDir.down := by
    have := (mem_pares_product [LongRule.read] [ColDir.down] lr cd).mp hpair
    simp only [List.mem_singleton] at this
    exact this
  obtain ⟨rfl, rfl⟩ := hlr
  rw [hs] at hplain
  simp only at hplain
  rw [hplain] at hrec
  have hlen : o.length = 3 := by rw [hperm.length_eq]; rfl
  obtain ⟨a, b, c, rfl⟩ : ∃ a b c, o = [a, b, c] := by
    rcases o with _ | ⟨a, rest⟩
    · simp at hlen
    rcases rest with _ | ⟨b, rest2⟩
    · simp at hlen
    rcases rest2 with _ | ⟨c, rest3⟩
    · simp at hlen
    rcases rest3 with _ | ⟨d, rest4⟩
    · exact ⟨a, b, c, rfl⟩
    · simp at hlen
  have ha : a ∈ ([1, 2, 3] : List Nat) := hperm.mem_iff.mp (by simp)
  have hb : b ∈ ([1, 2, 3] : List Nat) := hperm.mem_iff.mp (by simp)
  have hc : c ∈ ([1, 2, 3] : List Nat) := hperm.mem_iff.mp (by simp)
  fin_cases ha <;> fin_cases hb <;> fin_cases hc <;>
    first
      | exact absurd hrec (by decide)
      | exact absurd hplain (by decide)

/-- C4 (amended): planted-key completeness for the natural inscription rule —
for every A-Z plaintext `P` containing the crib, every valid read order and
column direction, if the variant set contains `(natural, dir)`, the swept `k`
range contains `k = len(order)` and the permutation budget is at least `k!`,
then the crib search emits the verified solution
`(order, natural, dir, P)`. -/
theorem busqueda_crib_completa (P : List Char) (order1 : List Nat) (dir : ColDir)
    (crib : List Char) (rules : List LongRule) (dirs : List ColDir)
    (kmin kmax maxperms : Nat)
    (hk : 1 ≤ order1.length)
    (horder : order1.Perm ((List.range order1.length).map (fun i => i + 1)))
    (hAZ : ∀ c ∈ P, isAZ c = true)
    (hcrib : crib <:+: P)
    (hrule : LongRule.natural ∈ rules) (hdir : dir ∈ dirs)
    (hkmin : kmin ≤ order1.length) (hkmax : order1.length ≤ kmax)
    (hbud : Nat.factorial order1.length ≤ maxperms) :
    (order1, LongRule.natural, dir, P) ∈
      buscar_en_rango (cifrar_por_orden_var P order1 dir) kmin kmax crib rules
        dirs false maxperms := by
  unfold buscar_en_rango
  rw [buscar_go_false]
  apply List.mem_flatMap.mpr
  refine ⟨order1.length, ?_, ?_⟩
  · rw [List.mem_range'_1]
    omega
  · unfold explorar_permutaciones
    rw [explorar_go_false]
    apply List.mem_flatMap.mpr
    refine ⟨order1, ?_, ?_⟩
    · rw [generar_def, if_pos (by rw [totalPerms_eq_factorial]; exact hbud)]
      exact List.mem_permutations.mpr horder
    · have hplain : descifrar_por_orden (cifrar_por_orden_var P order1 dir) order1
          LongRule.natural dir = P :=
        roundtrip_aux P order1 dir LongRule.natural hk horder hAZ (Or.inl rfl)
      rw [probar_perm, probar_pares_mem]
      refine ⟨LongRule.natural, dir,
        (mem_pares_product rules dirs LongRule.natural dir).mpr ⟨hrule, hdir⟩,
        ?_, ?_, ?_⟩
      · rw [hplain]
      · rw [hplain]; exact hcrib
      · rw [hplain]
        exact (cifrar_normalizada P order1 dir hk horder hAZ).symm

/-- Witness for C4 on the 21-symbol scenario text with crib `QUICK`, order
`[3,1,2]`, variant `(natural, down)`, sweep `k = 2..4`, budget `10 ≥ 3!`. -/
theorem busqueda_crib_completa_witness :
    (1 ≤ ([3, 1, 2] : List Nat).length ∧
     ([3, 1, 2] : List Nat).Perm
       ((List.range ([3, 1, 2] : List Nat).length).map (fun i => i + 1)) ∧
     (∀ c ∈ "THEQUICKBROWNFOXJUMPS".toList, isAZ c = true) ∧
     "QUICK".toList <:+: "THEQUICKBROWNFOXJUMPS".toList ∧
     LongRule.natural ∈ [LongRule.natural, LongRule.read] ∧
     ColDir.down ∈ [ColDir.down, ColDir.up] ∧
     2 ≤ ([3, 1, 2] : List Nat).length ∧ ([3, 1, 2] : List Nat).length ≤ 4 ∧
     Nat.factorial ([3, 1, 2] : List Nat).length ≤ 10) ∧
    ([3, 1, 2], LongRule.natural, ColDir.down, "THEQUICKBROWNFOXJUMPS".toList) ∈
      buscar_en_rango
        (cifrar_por_orden_var "THEQUICKBROWNFOXJUMPS".toList [3, 1, 2] ColDir.down)
        2 4 "QUICK".toList [LongRule.natural, LongRule.read]
        [ColDir.down, ColDir.up] false 10 :=
  ⟨⟨by decide, by decide, by decide, by decide, by decide, by decide,
    by decide, by decide, by decide⟩,
   busqueda_crib_completa "THEQUICKBROWNFOXJUMPS".toList [3, 1, 2] ColDir.down
     "QUICK".toList [LongRule.natural, LongRule.read] [ColDir.down, ColDir.up]
     2 4 10 (by decide) (by decide) (by decide) (by decide) (by decide)
     (by decide) (by decide) (by decide) (by decide)⟩

/-! ## The beam-search IndexError -/

theorem colectar_cons_none (f : α → Option (List β)) (a : α) (l : List α)
    (h : f a = none) : colectar f (a :: l) = none := by
  simp [colectar, h]

theorem getD_set_zero (n : Nat) (hn : 1 ≤ n) (seg : List Char) :
    ((List.replicate n ([] : List Char)).set 0 seg).getD 0 [] = seg := by
  rw [List.getD_eq_getElem?_getD, List.getElem?_set, if_pos rfl,
    List.length_replicate, if_pos (by omega)]
  rfl

theorem getD_set_one (n : Nat) (hn : 2 ≤ n) (seg : List Char) :
    ((List.replicate n ([] : List Char)).set 0 seg).getD 1 [] = [] := by
  rw [List.getD_eq_getElem?_getD, List.getElem?_set, if_neg (by omega)]
  rw [List.getElem?_eq_getElem (by simp; omega)]
  simp

theorem parcialOf_none (cols2 : List (List Char)) (n minRows : Nat)
    (hn : 2 ≤ n) (h1 : 1 ≤ minRows)
    (hsome : cols2.getD 0 [] ≠ [])
    (hnone : cols2.getD 1 [] = []) :
    parcialOf cols2 n minRows = none := by
  obtain ⟨t, rfl⟩ : ∃ t, minRows = t + 1 := ⟨minRows - 1, by omega⟩
  unfold parcialOf
  rw [List.range_succ_eq_map]
  apply colectar_cons_none
  obtain ⟨m, rfl⟩ : ∃ m, n = m + 2 := ⟨n - 2, by omega⟩
  rw [List.range_succ_eq_map, List.range_succ_eq_map]
  simp only [List.map_cons]
  rw [List.mapM_cons, List.mapM_cons]
  have hfirst : ∃ c, (cols2.getD 0 [])[0]? = some c := by
    cases hcol : cols2.getD 0 [] with
    | nil => exact absurd hcol hsome
    | cons c rest => exact ⟨c, by simp⟩
  obtain ⟨c, hc⟩ := hfirst
  have hc2 : (cols2[0]?.getD ([] : List Char))[0]? = some c := by
    rw [← List.getD_eq_getElem?_getD]
    exact hc
  have hs2 : (cols2[1]?.getD ([] : List Char))[0]? = none := by
    rw [← List.getD_eq_getElem?_getD, hnone]
    rfl
  simp [hc2, hs2]

theorem extUno_none_of_parcial (cipher : List Char) (n : Nat) (longs : List Nat)
    (st : Estado) (idx : Nat)
    (h : parcialOf (st.2.1.set idx ((cipher.drop st.2.2.1).take (longs.getD idx 0)))
          n
          (listMin ((st.1 ++ [idx]).map (fun i =>
            ((st.2.1.set idx
              ((cipher.drop st.2.2.1).take (longs.getD idx 0))).getD i []).length)))
        = none) :
    extUno cipher n longs st idx = none := by
  simp only [extUno]
  rw [h]

theorem extender_st0_none (cipher : List Char) (n : Nat) (longs : List Nat)
    (hn : 2 ≤ n) (hL : 1 ≤ longs.getD 0 0) (hC : 1 ≤ cipher.length) :
    extender cipher n longs ([], List.replicate n ([] : List Char), 0, (0 : ℚ))
      = none := by
  unfold extender
  have hrest : (List.range n).filter
      (fun i => !(List.contains ([] : List Nat) i)) = List.range n := by
    simp
  rw [hrest]
  obtain ⟨m, rfl⟩ : ∃ m, n = m + 2 := ⟨n - 2, by omega⟩
  rw [List.range_succ_eq_map]
  apply colectar_cons_none
  apply extUno_none_of_parcial
  have hseg : ((cipher.drop 0).take (longs.getD 0 0)).length = min (longs.getD 0 0) cipher.length := by
    rw [List.drop_zero, List.length_take]
  apply parcialOf_none _ _ _ hn
  · show 1 ≤ listMin ((([] : List Nat) ++ [0]).map (fun i =>
      (((List.replicate (m + 2) ([] : List Char)).set 0
        ((cipher.drop 0).take (longs.getD 0 0))).getD i []).length))
    rw [List.nil_append]
    simp only [List.map_cons, List.map_nil]
    rw [show listMin [(((List.replicate (m + 2) ([] : List Char)).set 0
        ((cipher.drop 0).take (longs.getD 0 0))).getD 0 []).length]
      = (((List.replicate (m + 2) ([] : List Char)).set 0
        ((cipher.drop 0).take (longs.getD 0 0))).getD 0 []).length from rfl]
    rw [getD_set_zero (m + 2) (by omega), hseg]
    exact Nat.le_min.mpr ⟨hL, hC⟩
  · show ((List.replicate (m + 2) ([] : List Char)).set 0
        ((cipher.drop 0).take (longs.getD 0 0))).getD 0 [] ≠ []
    rw [getD_set_zero (m + 2) (by omega)]
    intro hcontra
    have hlen2 := congrArg List.length hcontra
    rw [hseg] at hlen2
    have hmin := Nat.le_min.mpr ⟨hL, hC⟩
    simp only [List.length_nil] at hlen2
    omega
  · exact getD_set_one (m + 2) (by omega) _

/-- C5: the stated beam-search/brute-force equivalence cannot hold because
`beam_search` never completes: for every nonempty ciphertext and every column
count `n ≥ 2`, building the very first partial reconstruction indexes the
still-empty columns (`cols2[c][r]` for all `c in range(n)`), which raises
IndexError — modelled here as the `none` outcome — before any ranking
happens, whatever the beam width. -/
theorem beam_search_aborta (cipher : List Char) (n beam topk : Nat)
    (hn : 2 ≤ n) (hC : 1 ≤ cipher.length) :
    beam_search cipher n beam topk = none := by
  have hL : 1 ≤ (longitudes_columnasA cipher.length n).getD 0 0 := by
    unfold longitudes_columnasA
    rw [getD_map_range _ n 0 (by omega)]
    rcases Nat.lt_or_ge cipher.length n with hlt | hge
    · rw [Nat.mod_eq_of_lt hlt, if_pos (by omega)]
      exact Nat.le_add_left 1 _
    · have h1 : 1 ≤ cipher.length / n := (Nat.one_le_div_iff (by omega)).mpr hge
      by_cases h2 : 0 < cipher.length % n
      · rw [if_pos h2]
        exact Nat.le_add_left 1 _
      · rw [if_neg h2]
        simpa using h1
  have hext := extender_st0_none cipher n (longitudes_columnasA cipher.length n)
    hn hL hC
  have hcol : colectar (extender cipher n (longitudes_columnasA cipher.length n))
      [([], List.replicate n ([] : List Char), 0, (0 : ℚ))] = none :=
    colectar_cons_none _ _ _ hext
  have hpaso : pasoBeam cipher n (longitudes_columnasA cipher.length n) beam
      [([], List.replicate n ([] : List Char), 0, (0 : ℚ))] = none := by
    unfold pasoBeam
    rw [hcol]
  obtain ⟨m, rfl⟩ : ∃ m, n = m + 2 := ⟨n - 2, by omega⟩
  have hloop : pasosLoop cipher (m + 2) (longitudes_columnasA cipher.length (m + 2))
      beam (m + 2) [([], List.replicate (m + 2) ([] : List Char), 0, (0 : ℚ))]
      = none := by
    show pasosLoop cipher (m + 2) (longitudes_columnasA cipher.length (m + 2))
      beam (m + 1 + 1) [([], List.replicate (m + 2) ([] : List Char), 0, (0 : ℚ))]
      = none
    simp only [pasosLoop]
    rw [hpaso]
  simp only [beam_search]
  rw [hloop]

/-- Witness for C5: the crash at the concrete failing input — ciphertext
`THEQUICKBROWNFOX` (16 symbols), `k = 2` columns, beam width `720 ≥ 2!`. -/
theorem beam_search_aborta_witness :
    (2 ≤ 2 ∧ 1 ≤ "THEQUICKBROWNFOX".toList.length) ∧
    beam_search "THEQUICKBROWNFOX".toList 2 720 5 = none :=
  ⟨⟨by decide, by decide⟩,
   beam_search_aborta "THEQUICKBROWNFOX".toList 2 720 5 (by decide) (by decide)⟩

/-- C8: the claimed sort-and-truncate pruning step is never reached — already
while generating the extensions of the very first step, the partial
reconstruction indexes a still-empty column and raises IndexError (`none`),
here evaluated on a 25-symbol ciphertext with `n = 3`, `beam = 6`,
`kbest = 5`. -/
theorem beam_search_paso_indexerror :
    beam_search "THEQUICKBROWNFOXJUMPSOVER".toList 3 6 5 = none := rfl

/-! ## The column-count sweep -/

theorem searchGo_skip (cipher : List Char) (beam kbest : Nat) :
    ∀ ns : List Nat,
      (∀ n ∈ ns, n < 2 ∨ listMin (longitudes_columnasA cipher.length n) < 3) →
      searchGo cipher beam kbest ns [] = some [] := by
  intro ns
  induction ns with
  | nil =>
    intro _
    show some ((ordenarDesc (fun t => t.1) []).take kbest) = some []
    rw [show ordenarDesc (fun t : ℚ × Nat × List Nat × List Char => t.1) []
      = [] from rfl, List.take_nil]
  | cons n rest ih =>
    intro h
    have hrest : ∀ m ∈ rest,
        m < 2 ∨ listMin (longitudes_columnasA cipher.length m) < 3 :=
      fun m hm => h m (List.mem_cons_of_mem _ hm)
    rcases h n (List.mem_cons_self _ _) with h2 | h2
    · simp only [searchGo]
      rw [if_pos h2]
      exact ih hrest
    · simp only [searchGo]
      by_cases h3 : n < 2
      · rw [if_pos h3]
        exact ih hrest
      · rw [if_neg h3, if_pos h2]
        exact ih hrest

/-- C9: every `k` in `[kmin, kmax]` that is below 2 or whose geometry has a
column shorter than 3 is skipped without aborting the sweep, and when every
`k` in the range is skipped, `search_n` returns the empty result set (and in
particular raises no error). -/
theorem search_n_sin_geometria (cipher : List Char) (nmin nmax beam kbest : Nat)
    (h : ∀ n ∈ List.range' nmin (nmax + 1 - nmin),
      n < 2 ∨ listMin (longitudes_columnasA cipher.length n) < 3) :
    search_n cipher nmin nmax beam kbest = some [] := by
  unfold search_n
  exact searchGo_skip cipher beam kbest _ h

/-- Witness for C9: ciphertext `ABCD` swept over `k = 2..3` — both column
counts give a minimum column length below 3, so the sweep returns `some []`. -/
theorem search_n_sin_geometria_witness :
    (∀ n ∈ List.range' 2 (3 + 1 - 2),
      n < 2 ∨ listMin (longitudes_columnasA "ABCD".toList.length n) < 3) ∧
    search_n "ABCD".toList 2 3 200 5 = some [] :=
  ⟨by decide, search_n_sin_geometria "ABCD".toList 2 3 200 5 (by decide)⟩

/-! ## Scoring -/

/-- C7: `score_text` returns the `-1e9` sentinel for inputs shorter than 3
symbols and otherwise the sum, over the `L - 2` overlapping windows
`s[i:i+3]`, of the table's log-probability, substituting the default floor
for trigrams absent from the table; every window has exactly 3 symbols, and
`score_text` is this scorer applied to the fallback table. -/
theorem score_text_por_ventanas (tbl : List Char → Option ℚ) (dflt : ℚ)
    (s : List Char) :
    score_text_tab tbl dflt s
      = (if s.length < 3 then -1000000000
         else ((List.range (s.length - 2)).map
           (fun i => (tbl ((s.drop i).take 3)).getD dflt)).sum) ∧
    ((List.range (s.length - 2)).map
      (fun i => ((s.drop i).take 3).length)).all (fun L => L == 3) = true ∧
    (List.range (s.length - 2)).length = s.length - 2 ∧
    score_text s = score_text_tab TRI TRI_DEF s := by
  refine ⟨?_, ?_, List.length_range _, rfl⟩
  · unfold score_text_tab
    by_cases h : s.length < 3
    · rw [if_pos h, if_pos h]
    · rw [if_neg h, if_neg h, List.sum_eq_foldl, ← List.foldl_map]
  · rw [List.all_eq_true]
    intro L hL
    obtain ⟨i, hi, rfl⟩ := List.mem_map.mp hL
    rw [List.mem_range] at hi
    have h3 : ((s.drop i).take 3).length = 3 := by
      rw [List.length_take, List.length_drop]
      omega
    rw [h3]
    rfl

/-! ## Decode preserves the multiset of symbols -/

theorem heads_tails_perm (cols : List (List Char)) :
    (cols.filterMap (fun col => col[0]?)
      ++ (cols.map (List.drop 1)).flatten).Perm cols.flatten := by
  induction cols with
  | nil => simp
  | cons c cs ih =>
    cases c with
    | nil =>
      simp only [List.filterMap_cons, List.map_cons, List.flatten_cons]
      simpa using ih
    | cons ch ct =>
      simp only [List.filterMap_cons, List.getElem?_cons_zero, List.map_cons,
        List.flatten_cons, List.drop_succ_cons, List.drop_zero, List.cons_append,
        List.flatten]
      refine List.Perm.cons ch ?_
      exact (List.perm_append_comm_assoc _ ct _).trans (List.Perm.append_left ct ih)

theorem rows_perm : ∀ (M : Nat) (cols : List (List Char)),
    (∀ c ∈ cols, c.length ≤ M) →
    (((List.range M).map
      (fun r => cols.filterMap (fun col => col[r]?))).flatten).Perm cols.flatten := by
  intro M
  induction M with
  | zero =>
    intro cols h
    have hnil : cols.flatten = [] := by
      rw [List.flatten_eq_nil_iff]
      intro l hl
      exact List.eq_nil_of_length_eq_zero (by have := h l hl; omega)
    simp [hnil]
  | succ M ih =>
    intro cols h
    rw [List.range_succ_eq_map, List.map_cons, List.flatten_cons, List.map_map]
    have hcomp : ((fun r => cols.filterMap (fun col => col[r]?)) ∘ Nat.succ)
        = fun r => (cols.map (List.drop 1)).filterMap (fun col => col[r]?) := by
      funext r
      simp only [Function.comp_apply]
      rw [List.filterMap_map]
      apply List.filterMap_congr
      intro col _
      simp only [Function.comp_apply]
      rw [List.getElem?_drop, show 1 + r = Nat.succ r by omega]
    rw [hcomp]
    have htails : ∀ c2 ∈ cols.map (List.drop 1), c2.length ≤ M := by
      intro c2 hc2
      obtain ⟨c, hc, rfl⟩ := List.mem_map.mp hc2
      rw [List.length_drop]
      have := h c hc
      omega
    exact (List.Perm.append_left _ (ih (cols.map (List.drop 1)) htails)).trans
      (heads_tails_perm cols)

theorem leer_por_filas_perm (cols : List (List Char)) :
    (leer_por_filas cols).Perm cols.flatten := by
  unfold leer_por_filas
  apply rows_perm
  intro c hc
  exact le_listMax _ _ (List.mem_map_of_mem List.length hc)

/-- The segment of the ciphertext that the assignment loop hands to column
`idx`, reconstructed by walking the read order. -/
def segmento (C : List Char) (longs : List Nat) : List Nat → Nat → List Char
  | [], _ => []
  | j :: rest, idx =>
    if j = idx then C.take (longs.getD idx 0)
    else segmento (C.drop (longs.getD j 0)) longs rest idx

theorem segmento_layout (longs : List Nat) : ∀ (os : List Nat) (C : List Char),
    os.Nodup →
    C = (os.map (segmento C longs os)).flatten
      ++ C.drop ((os.map (fun j => longs.getD j 0)).sum) := by
  intro os
  induction os with
  | nil => intro C _; simp
  | cons j rest ih =>
    intro C hnd
    have hjrest : j ∉ rest := (List.nodup_cons.mp hnd).1
    have hndr : rest.Nodup := (List.nodup_cons.mp hnd).2
    have hTail : rest.map (segmento C longs (j :: rest))
        = rest.map (segmento (C.drop (longs.getD j 0)) longs rest) := by
      apply List.map_congr_left
      intro j2 hj2
      simp only [segmento]
      rw [if_neg (fun he => hjrest (by rw [he]; exact hj2))]
    have hhead : segmento C longs (j :: rest) j = C.take (longs.getD j 0) := by
      simp [segmento]
    rw [List.map_cons, List.flatten_cons, List.map_cons, List.sum_cons, hTail,
      hhead, List.append_assoc, ← List.drop_drop,
      ← ih (C.drop (longs.getD j 0)) hndr]
    exact (List.take_append_drop _ _).symm

theorem segmento_length (longs : List Nat) : ∀ (os : List Nat) (C : List Char),
    os.Nodup →
    (os.map (fun j => longs.getD j 0)).sum ≤ C.length →
    ∀ j2 ∈ os, (segmento C longs os j2).length = longs.getD j2 0 := by
  intro os
  induction os with
  | nil =>
    intro C _ _ j2 hj2
    simp at hj2
  | cons j rest ih =>
    intro C hnd hsum j2 hj2
    have hjrest : j ∉ rest := (List.nodup_cons.mp hnd).1
    rw [List.map_cons, List.sum_cons] at hsum
    rcases List.mem_cons.mp hj2 with h2 | h2
    · subst h2
      rw [show segmento C longs (j2 :: rest) j2 = C.take (longs.getD j2 0) by
        simp [segmento], List.length_take]
      omega
    · have hne : j ≠ j2 := fun he => hjrest (he ▸ h2)
      simp only [segmento]
      rw [if_neg hne]
      apply ih (C.drop (longs.getD j 0)) (List.nodup_cons.mp hnd).2 _ j2 h2
      rw [List.length_drop]
      omega

theorem flatten_map_reverse_perm (cols : List (List Char)) :
    ((cols.map List.reverse).flatten).Perm cols.flatten := by
  induction cols with
  | nil => simp
  | cons c cs ih =>
    simp only [List.map_cons, List.flatten_cons]
    exact List.Perm.append (List.reverse_perm c) ih

theorem map_getD_range_self (l : List Nat) :
    (List.range l.length).map (fun i => l.getD i 0) = l := by
  apply List.ext_getElem
  · simp
  · intro i h1 h2
    rw [List.getElem_map, List.getElem_range, List.getD_eq_getElem _ 0 h2]

theorem order0_perm (order1 : List Nat)
    (horder : order1.Perm ((List.range order1.length).map (fun i => i + 1))) :
    (order1.map (fun i => i - 1)).Perm (List.range order1.length) := by
  have h1 := horder.map (fun i => i - 1)
  rw [List.map_map] at h1
  have h2 : ((fun i => i - 1) ∘ (fun i => i + 1)) = id := by
    funext x; simp
  rw [h2, List.map_id] at h1
  exact h1

theorem leer_asignar_perm (Cn : List Char) (longs : List Nat) (os : List Nat)
    (n : Nat) (hos : os.Perm (List.range n))
    (hsum : (os.map (fun j => longs.getD j 0)).sum = Cn.length) :
    (leer_por_filas (asignar Cn longs os n)).Perm Cn ∧
    (leer_por_filas ((asignar Cn longs os n).map List.reverse)).Perm Cn := by
  have hnd : os.Nodup := (hos.nodup_iff).mpr (List.nodup_range n)
  have hbound : ∀ j ∈ os, j < n := by
    intro j hj
    have := hos.mem_iff.mp hj
    simpa using this
  have hlay := segmento_layout longs os Cn hnd
  rw [hsum, List.drop_length, List.append_nil] at hlay
  have hlens := segmento_length longs os Cn hnd (by rw [hsum])
  obtain ⟨hALen, hAget⟩ := asignar_invariant Cn longs (segmento Cn longs os) os
    (List.replicate n []) 0 []
    (fun j hj => by rw [List.length_replicate]; exact hbound j hj)
    (by rw [List.drop_zero, List.append_nil]; exact hlay)
    hlens
  rw [List.length_replicate] at hALen hAget
  have hcolsEq : asignar Cn longs os n
      = (List.range n).map (fun i => segmento Cn longs os i) := by
    apply List.ext_getElem
    · rw [asignar_def, hALen]
      simp
    · intro i h1 h2
      have hi : i < n := by
        rw [asignar_def, hALen] at h1
        exact h1
      rw [← List.getD_eq_getElem _ [] h1, asignar_def,
        hAget i hi, if_pos (hos.mem_iff.mpr (List.mem_range.mpr hi)),
        List.getElem_map, List.getElem_range]
  have hflatperm : ((List.range n).map
      (fun i => segmento Cn longs os i)).flatten.Perm Cn := by
    refine (List.Perm.flatten ((hos.symm).map _)).trans ?_
    conv_rhs => rw [hlay]
  constructor
  · rw [hcolsEq]
    exact (leer_por_filas_perm _).trans hflatperm
  · rw [hcolsEq]
    exact (leer_por_filas_perm _).trans ((flatten_map_reverse_perm _).trans hflatperm)

/-- C10: decoding never loses or duplicates a symbol — for every ciphertext,
valid 1-based read order and structural variant, the decoded plaintext is a
permutation (as a multiset) of the normalized ciphertext, and in particular
has the same length. -/
theorem descifrar_preserva_multiconjunto (C : List Char) (order1 : List Nat)
    (rule : LongRule) (dir : ColDir)
    (hk : 1 ≤ order1.length)
    (horder : order1.Perm ((List.range order1.length).map (fun i => i + 1))) :
    (descifrar_por_orden C order1 rule dir).Perm (normalizar C) ∧
    (descifrar_por_orden C order1 rule dir).length = (normalizar C).length := by
  have horder0 := order0_perm order1 horder
  have hsumlongs : ((order1.map (fun i => i - 1)).map
      (fun j => (longitudes_columnas (normalizar C).length order1.length
        (order1.map (fun i => i - 1)) rule).getD j 0)).sum
      = (normalizar C).length := by
    rw [(horder0.map (fun j => (longitudes_columnas (normalizar C).length
      order1.length (order1.map (fun i => i - 1)) rule).getD j 0)).sum_eq]
    have hlen := longitudes_length (normalizar C).length order1.length
      (order1.map (fun i => i - 1)) rule
    rw [show List.range order1.length
      = List.range (longitudes_columnas (normalizar C).length order1.length
          (order1.map (fun i => i - 1)) rule).length by rw [hlen]]
    rw [map_getD_range_self]
    exact longitudes_sum _ _ _ rule hk horder0
  obtain ⟨hdown, hup⟩ := leer_asignar_perm (normalizar C)
    (longitudes_columnas (normalizar C).length order1.length
      (order1.map (fun i => i - 1)) rule)
    (order1.map (fun i => i - 1)) order1.length horder0 hsumlongs
  rw [descifrar_def]
  cases dir with
  | down => exact ⟨hdown, hdown.length_eq⟩
  | up => exact ⟨hup, hup.length_eq⟩

/-- Witness for C10: decoding `HELLOWORLD` with order `[2,3,1]` under the
read rule, reading columns upward, permutes the normalized ciphertext. -/
theorem descifrar_preserva_multiconjunto_witness :
    (1 ≤ ([2, 3, 1] : List Nat).length ∧
     ([2, 3, 1] : List Nat).Perm
       ((List.range ([2, 3, 1] : List Nat).length).map (fun i => i + 1))) ∧
    ((descifrar_por_orden "HELLOWORLD".toList [2, 3, 1] LongRule.read
        ColDir.up).Perm (normalizar "HELLOWORLD".toList) ∧
     (descifrar_por_orden "HELLOWORLD".toList [2, 3, 1] LongRule.read
        ColDir.up).length = (normalizar "HELLOWORLD".toList).length) :=
  ⟨⟨by decide, by decide⟩,
   descifrar_preserva_multiconjunto "HELLOWORLD".toList [2, 3, 1] LongRule.read
     ColDir.up (by decide) (by decide)⟩
